import Mathlib

/-!
# Persistent heap allocator `scm.c` (project-3)

A shallow embedding of `src/project-3/scm.c`.

* The mapped file is a byte-addressed memory `Mem` (virtual address to byte).
  A `size_t` is 8 bytes, stored little endian, and may sit at any byte
  address (payload sizes are not rounded, so block metadata is unaligned).
* `size_t` and pointer arithmetic is arithmetic modulo `2^64`.
* `struct scm` lives outside the mapping, so its fields are ordinary record
  fields.  The descriptor `fd` is closed before `scm_open` returns and is
  never read again; it is not part of the record.
* The two `while` loops take a bound on the number of iterations and return
  `none` when the bound is exhausted (the loops need not terminate on a
  corrupted region).
* `mmap` maps the whole pages that hold the file.  The stores that create a
  block (the append path of `scm_malloc`, and `scm_strdup`) are checked
  against these pages: nothing else is mapped next to them, so a store
  outside of them raises a signal that ends the process, and the call has no
  result.  Loads and stores at the header and at
  blocks already laid out are not checked.  Bytes past the end of the file
  but inside its last page can be stored and loaded; `msync` does not write
  them to the file.
* Macro `EXIT` comes from `system.h`, which is not among the sources; the
  out-of-memory branch is the `return NULL` that follows it.
* The argument of `scm_strdup` is passed as the list of its bytes before the
  terminator.
-/

namespace Scm

/-! ## Machine words and memory -/

/-- Number of values of a `size_t` (LP64: 8 bytes). -/
def SIZE_T : Nat := 2 ^ 64

/-- Value `SIZE_MAX` of `<stdint.h>`. -/
def SIZE_MAX : Nat := SIZE_T - 1

/-- Value `sizeof(size_t)`. -/
def WORD : Nat := 8

/-- Macro `VM_START_ADDR`, defined as `0x700000000000`. -/
def VM_START_ADDR : Nat := 0x700000000000

/-- Macro `SIZE_INFO_ID`, defined as `SIZE_MAX-1`: the header sentinel. -/
def SIZE_INFO_ID : Nat := SIZE_MAX - 1

/-- Macro `SIZE_INFO_BYTES`, defined as `3*sizeof(size_t)`. -/
def SIZE_INFO_BYTES : Nat := 3 * WORD

/-- Macro `ADDR_INFO_BYTES`, defined as `2*sizeof(size_t)`. -/
def ADDR_INFO_BYTES : Nat := 2 * WORD

/-- The null pointer. -/
def NULL : Nat := 0

/-- Byte-addressed memory: virtual address to byte value. -/
abbrev Mem := Nat → Nat

/-- Load of a `size_t` from address `a` (8 bytes, little endian). -/
def readWord (m : Mem) (a : Nat) : Nat :=
  m a % 256 + (m (a + 1) % 256) * 256 ^ 1 + (m (a + 2) % 256) * 256 ^ 2
    + (m (a + 3) % 256) * 256 ^ 3 + (m (a + 4) % 256) * 256 ^ 4
    + (m (a + 5) % 256) * 256 ^ 5 + (m (a + 6) % 256) * 256 ^ 6
    + (m (a + 7) % 256) * 256 ^ 7

/-- Memory after the store of the `size_t` value `v` at address `a`.  Whether
the address is mapped is decided where the store is made, see `mapped`. -/
def writeWord (m : Mem) (a v : Nat) : Mem :=
  fun x => if a ≤ x ∧ x < a + 8 then (v / 256 ^ (x - a)) % 256 else m x

/-- Memory after the store of the bytes `bs` from address `a` on.  Whether the
addresses are mapped is decided where the store is made, see `mapped`. -/
def writeBytes (m : Mem) (a : Nat) (bs : List Nat) : Mem :=
  fun x => if a ≤ x ∧ x < a + bs.length then bs.getD (x - a) 0 % 256 else m x

/-- Pointer plus byte offset. -/
def padd (p k : Nat) : Nat := (p + k) % SIZE_T

/-- Pointer minus byte offset. -/
def psub (p k : Nat) : Nat := (p + SIZE_T - k % SIZE_T) % SIZE_T

/-! ## The region record -/

/-- Record `struct scm` (without the descriptor `fd`), together with the
contents of the mapped memory. -/
structure scm where
  /-- Field `size`: length of the backing file. -/
  size : Nat
  /-- Field `used_bytes`: total bytes used in the region, metadata included. -/
  used_bytes : Nat
  /-- Field `user_bytes`: total bytes currently used by the application. -/
  user_bytes : Nat
  /-- Field `size_info`: address of the three header words. -/
  size_info : Nat
  /-- Field `base_addr`: start of the usable space. -/
  base_addr : Nat
  /-- Field `mapped_addr`: start of the mapping. -/
  mapped_addr : Nat
  /-- The bytes of the address space. -/
  mem : Mem

/-- Size of a page of the mapping (x86-64 Linux). -/
def PAGE_SIZE : Nat := 4096

/-- First address past the pages that `mmap` maps for the `size` bytes of
the file. -/
def mapEnd (s : scm) : Nat :=
  s.mapped_addr + (s.size + PAGE_SIZE - 1) / PAGE_SIZE * PAGE_SIZE

/-- The `k` bytes from address `a` on lie inside the mapped pages.  A store
outside of them raises a signal that ends the process. -/
def mapped (s : scm) (a k : Nat) : Prop :=
  s.mapped_addr ≤ a ∧ a + k ≤ mapEnd s

instance mappedDecidable (s : scm) (a k : Nat) : Decidable (mapped s a k) :=
  inferInstanceAs (Decidable (s.mapped_addr ≤ a ∧ a + k ≤ mapEnd s))

/-- Function `scm_mbase`. -/
def scm_mbase (s : scm) : Nat :=
  if s.used_bytes ≠ 0 then padd s.base_addr (2 * WORD) else s.base_addr

/-- Function `scm_utilized`. -/
def scm_utilized (s : scm) : Nat := s.user_bytes

/-- Function `scm_capacity`. -/
def scm_capacity (s : scm) : Nat := s.size

/-! ## Opening a region -/

/-- What `scm_open` sees of the environment: whether `open` succeeds, whether
the file is regular, its length, its bytes, and whether `mmap` succeeds at
the fixed address. -/
structure File where
  /-- Call `open(pathname, O_RDWR)` succeeds. -/
  openable : Bool
  /-- Test `S_ISREG(statbuf.st_mode)`. -/
  regular : Bool
  /-- Value `statbuf.st_size`. -/
  size : Nat
  /-- Byte at each file offset. -/
  data : Nat → Nat
  /-- Call `mmap` returns `VM_START_ADDR`. -/
  mappable : Bool

/-- Memory after the `MAP_SHARED` mapping of the file at `VM_START_ADDR`. -/
def mapFile (f : File) : Mem :=
  fun a => if VM_START_ADDR ≤ a then f.data (a - VM_START_ADDR) else 0

/-- Function `scm_open`; `none` is the `NULL` result. -/
def scm_open (f : File) (truncate : Int) : Option scm :=
  if !f.openable then none
  else if !f.regular then none
  else if !f.mappable then none
  else
    let mapped_addr := VM_START_ADDR
    let base_addr := padd mapped_addr SIZE_INFO_BYTES
    let size_info := mapped_addr
    let m0 := mapFile f
    let m :=
      if readWord m0 size_info ≠ SIZE_INFO_ID ∨ truncate ≠ 0 then
        writeWord (writeWord (writeWord m0 size_info SIZE_INFO_ID)
          (size_info + WORD) 0) (size_info + 2 * WORD) 0
      else m0
    some { size := f.size % SIZE_T
           used_bytes := readWord m (size_info + WORD)
           user_bytes := readWord m (size_info + 2 * WORD)
           size_info := size_info
           base_addr := base_addr
           mapped_addr := mapped_addr
           mem := m }

/-! ## Allocation -/

/-- The `while` loop of `scm_malloc`: `some (some addr)` when a free block of
stored size at least `n` is found at payload address `addr`, `some none` when
the loop runs to its end, `none` when more than `fuel` iterations are needed. -/
def malloc_scan (m : Mem) (limit n : Nat) : Nat → Nat → Option (Option Nat)
  | fuel, addr =>
    if addr < limit then
      match fuel with
      | 0 => none
      | fuel + 1 =>
        let addr_info := psub addr (2 * WORD)
        if readWord m addr_info = 0 ∧ readWord m (addr_info + WORD) ≥ n then
          some (some addr)
        else
          malloc_scan m limit n fuel
            (padd (padd addr (readWord m (addr_info + WORD))) ADDR_INFO_BYTES)
    else some none

/-- Function `scm_malloc`.  The result is the new region and the returned
pointer; the out-of-memory branch returns `NULL` and the region as it was.
The result is `none` when the call does not return: the loop needs more than
`fuel` iterations, or the two metadata words of the new block do not lie in
the mapped pages and the store of them ends the process. -/
def scm_malloc (fuel : Nat) (s : scm) (n : Nat) : Option (scm × Nat) :=
  let base := scm_mbase s
  match malloc_scan s.mem (padd base s.used_bytes) n fuel base with
  | none => none
  | some (some addr) =>
    some ({ s with mem := writeWord s.mem (psub addr (2 * WORD)) 1 }, addr)
  | some none =>
    if (s.used_bytes + n + ADDR_INFO_BYTES) % SIZE_T > s.size then
      some (s, NULL)
    else
      let addr_info := padd s.base_addr s.used_bytes
      if mapped s addr_info ADDR_INFO_BYTES then
        let m1 := writeWord s.mem addr_info 1
        let m2 := writeWord m1 (addr_info + WORD) n
        let user := (s.user_bytes + n) % SIZE_T
        let used := (s.used_bytes + (n + ADDR_INFO_BYTES) % SIZE_T) % SIZE_T
        let m3 := writeWord m2 (s.size_info + WORD) used
        let m4 := writeWord m3 (s.size_info + 2 * WORD) user
        some ({ s with mem := m4, used_bytes := used, user_bytes := user },
          padd addr_info ADDR_INFO_BYTES)
      else none

/-- Function `scm_strdup`; `str` is the bytes of the string before its
terminator.  The result is `none` when the call does not return: the two
metadata words or the `strlen + 1` bytes that `strcpy` stores do not lie in
the mapped pages, and the store of them ends the process. -/
def scm_strdup (s : scm) (str : List Nat) : Option (scm × Nat) :=
  let addr_info := padd s.base_addr s.used_bytes
  let temp := padd addr_info ADDR_INFO_BYTES
  if mapped s addr_info ADDR_INFO_BYTES ∧ mapped s temp (str.length + 1) then
    let m1 := writeWord s.mem addr_info 1
    let m2 := writeWord m1 (addr_info + WORD) ((str.length + 1) % SIZE_T)
    let m3 := writeBytes m2 temp (str ++ [0])
    let user := (s.user_bytes + readWord m3 (addr_info + WORD)) % SIZE_T
    let used :=
      (s.used_bytes + (readWord m3 (addr_info + WORD) + ADDR_INFO_BYTES) % SIZE_T) % SIZE_T
    let m4 := writeWord m3 (s.size_info + WORD) used
    let m5 := writeWord m4 (s.size_info + 2 * WORD) user
    some ({ s with mem := m5, used_bytes := used, user_bytes := user }, temp)
  else none

/-! ## Release -/

/-- The `while` loop of `scm_allocated_addr`. -/
def allocated_scan (m : Mem) (limit p : Nat) : Nat → Nat → Option Bool
  | fuel, addr =>
    if addr < limit then
      match fuel with
      | 0 => none
      | fuel + 1 =>
        if addr = p then some true
        else
          allocated_scan m limit p fuel
            (padd (padd addr (readWord m (psub addr (2 * WORD) + WORD))) ADDR_INFO_BYTES)
    else some false

/-- Function `scm_allocated_addr`. -/
def scm_allocated_addr (fuel : Nat) (s : scm) (p : Nat) : Option Bool :=
  let base := scm_mbase s
  allocated_scan s.mem (padd base s.used_bytes) p fuel base

/-- Function `scm_free`. -/
def scm_free (fuel : Nat) (s : scm) (p : Nat) : Option scm :=
  match scm_allocated_addr fuel s p with
  | none => none
  | some false => some s
  | some true =>
    let addr_info := psub p (2 * WORD)
    let m1 := writeWord s.mem addr_info 0
    let user := (s.user_bytes + SIZE_T - readWord m1 (addr_info + WORD)) % SIZE_T
    let m2 := writeWord m1 (s.size_info + 2 * WORD) user
    some { s with mem := m2, user_bytes := user }

/-- Function `scm_close`: the header stores; the result is the memory that
`msync` writes back to the file. -/
def scm_close (s : scm) : Mem :=
  writeWord (writeWord (writeWord s.mem s.size_info SIZE_INFO_ID)
    (s.size_info + WORD) s.used_bytes) (s.size_info + 2 * WORD) s.user_bytes

/-! ## Layout of a region, as the data model of the specification states it -/

/-- The metadata prefix of a block: liveness flag and payload size. -/
structure Block where
  /-- Word 0 of the prefix: 0 free, 1 live. -/
  flag : Nat
  /-- Word 1 of the prefix: payload size in bytes. -/
  size : Nat
  deriving DecidableEq

/-- Memory `m` holds the blocks `bs` back to back from address `o` up to
address `e`: each prefix is stored at the block's start and the next block
starts right after the payload. -/
def tiles (m : Mem) : Nat → List Block → Nat → Prop
  | o, [], e => o = e
  | o, b :: bs, e =>
    readWord m o = b.flag ∧ readWord m (o + WORD) = b.size ∧
      tiles m (o + ADDR_INFO_BYTES + b.size) bs e

instance tilesDecidable (m : Mem) : ∀ (o : Nat) (bs : List Block) (e : Nat),
    Decidable (tiles m o bs e)
  | o, [], e => inferInstanceAs (Decidable (o = e))
  | o, b :: bs, e =>
    have := tilesDecidable m (o + ADDR_INFO_BYTES + b.size) bs e
    inferInstanceAs (Decidable (readWord m o = b.flag ∧ readWord m (o + WORD) = b.size ∧
      tiles m (o + ADDR_INFO_BYTES + b.size) bs e))

/-- Bytes taken by the blocks `bs`: metadata plus payload of each. -/
def blocksBytes : List Block → Nat
  | [] => 0
  | b :: bs => ADDR_INFO_BYTES + b.size + blocksBytes bs

/-- Sum of the payload sizes of the blocks whose liveness flag is 1. -/
def liveBytes : List Block → Nat
  | [] => 0
  | b :: bs => (if b.flag = 1 then b.size else 0) + liveBytes bs

/-- Payload start addresses of the blocks `bs` laid out from address `o`. -/
def payloads : Nat → List Block → List Nat
  | _, [] => []
  | o, b :: bs => (o + ADDR_INFO_BYTES) :: payloads (o + ADDR_INFO_BYTES + b.size) bs

/-- The blocks `bs` tile the used area `[0, used_bytes)` of the usable space,
and the end of the used area is an address the scan can compute without
wrapping around. -/
structure Tiled (s : scm) (bs : List Block) : Prop where
  /-- The blocks fill the used area exactly. -/
  layout : tiles s.mem s.base_addr bs (s.base_addr + s.used_bytes)
  /-- The scan limit is representable. -/
  fits : s.base_addr + ADDR_INFO_BYTES + s.used_bytes < SIZE_T

/-- A well-formed region, after the data model: the record is laid out as
`scm_open` leaves it, the blocks tile the used area, `user_bytes` is the sum of
the live payload sizes and `used_bytes` does not exceed the capacity. -/
structure WellFormed (s : scm) (bs : List Block) : Prop where
  /-- The header is at the start of the mapping. -/
  header : s.size_info = s.mapped_addr
  /-- The usable space starts after the three header words. -/
  base : s.base_addr = s.mapped_addr + SIZE_INFO_BYTES
  /-- The blocks fill the used area exactly. -/
  layout : tiles s.mem s.base_addr bs (s.base_addr + s.used_bytes)
  /-- Counter `user_bytes` is the sum of the live payload sizes. -/
  user : s.user_bytes = liveBytes bs
  /-- Counter `used_bytes` is within the capacity. -/
  cap : s.used_bytes ≤ s.size
  /-- The whole capacity is addressable from the usable space. -/
  fits : s.base_addr + ADDR_INFO_BYTES + s.size < SIZE_T

/-! ## Regions the operations produce -/

/-- The region after the append path of `scm_malloc` with request `n`, when
the new block's address `base_addr + used_bytes` does not wrap around. -/
def appended (s : scm) (n : Nat) : scm :=
  { s with
    mem :=
      writeWord
        (writeWord
          (writeWord (writeWord s.mem (s.base_addr + s.used_bytes) 1)
            (s.base_addr + s.used_bytes + WORD) n)
          (s.size_info + WORD) ((s.used_bytes + n + ADDR_INFO_BYTES) % SIZE_T))
        (s.size_info + 2 * WORD) ((s.user_bytes + n) % SIZE_T)
    used_bytes := (s.used_bytes + n + ADDR_INFO_BYTES) % SIZE_T
    user_bytes := (s.user_bytes + n) % SIZE_T }

/-- The region after `scm_free` has released the block whose metadata is at
address `a` and whose stored size is `sz`. -/
def released (s : scm) (a sz : Nat) : scm :=
  { s with
    mem := writeWord (writeWord s.mem a 0) (s.size_info + 2 * WORD)
      ((s.user_bytes + SIZE_T - sz) % SIZE_T)
    user_bytes := (s.user_bytes + SIZE_T - sz) % SIZE_T }

/-- The region after `scm_strdup` of the bytes `str`, when the new block's
addresses do not wrap around. -/
def duplicated (s : scm) (str : List Nat) : scm :=
  { s with
    mem :=
      writeWord
        (writeWord
          (writeBytes
            (writeWord (writeWord s.mem (s.base_addr + s.used_bytes) 1)
              (s.base_addr + s.used_bytes + WORD) (str.length + 1))
            (s.base_addr + s.used_bytes + ADDR_INFO_BYTES) (str ++ [0]))
          (s.size_info + WORD) (s.used_bytes + (str.length + 1) + ADDR_INFO_BYTES))
        (s.size_info + 2 * WORD) ((s.user_bytes + (str.length + 1)) % SIZE_T)
    used_bytes := s.used_bytes + (str.length + 1) + ADDR_INFO_BYTES
    user_bytes := (s.user_bytes + (str.length + 1)) % SIZE_T }

/-- The memory `scm_open` leaves when it (re)initialises the header. -/
def resetMem (f : File) : Mem :=
  writeWord (writeWord (writeWord (mapFile f) VM_START_ADDR SIZE_INFO_ID)
    (VM_START_ADDR + WORD) 0) (VM_START_ADDR + 2 * WORD) 0

/-- The region `scm_open` returns when it (re)initialises the header. -/
def resetRegion (f : File) : scm :=
  { size := f.size % SIZE_T
    used_bytes := 0
    user_bytes := 0
    size_info := VM_START_ADDR
    base_addr := VM_START_ADDR + SIZE_INFO_BYTES
    mapped_addr := VM_START_ADDR
    mem := resetMem f }

/-! ## Sample files -/

/-- A regular file of `n` bytes, every byte `v`. -/
def constFile (n v : Nat) : File :=
  { openable := true, regular := true, size := n, data := fun _ => v, mappable := true }

/-- A 64-byte file of zero bytes. -/
def file64 : File := constFile 64 0

/-- The region after allocate A (16), allocate B (16) on the freshly reset
64-byte file, as the append path leaves it. -/
def regionAB : scm := appended (appended (resetRegion file64) 16) 16

/-- The region after the release of A in `regionAB`. -/
def regionB : scm := released regionAB (VM_START_ADDR + SIZE_INFO_BYTES) 16

/-! ## Reachable states -/

/-- A state reached from the freshly reset file `f`, with the pointers the
calls have returned so far; every call returns and none makes `size_t`
arithmetic wrap. -/
inductive Reach (f : File) : scm → List Nat → Prop where
  | reset : Reach f (resetRegion f) []
  | malloc (s : scm) (issued : List Nat) (n fuel : Nat) (s1 : scm) (p : Nat) :
      Reach f s issued → s.used_bytes + n + ADDR_INFO_BYTES < SIZE_T →
      scm_malloc fuel s n = some (s1, p) → Reach f s1 (p :: issued)
  | strdup (s : scm) (issued : List Nat) (str : List Nat) (s1 : scm) (p : Nat) :
      Reach f s issued →
      s.base_addr + ADDR_INFO_BYTES + s.used_bytes + (str.length + 1) + ADDR_INFO_BYTES < SIZE_T →
      scm_strdup s str = some (s1, p) → Reach f s1 (p :: issued)
  | free (s : scm) (issued : List Nat) (p fuel : Nat) (s1 : scm) :
      Reach f s issued → scm_free fuel s p = some s1 → Reach f s1 issued

/-- What every reached state satisfies. -/
structure Inv (s : scm) (issued : List Nat) (bs : List Block) : Prop where
  /-- The blocks tile the used area. -/
  tiled : Tiled s bs
  /-- The header words end before the usable space. -/
  header : s.size_info + SIZE_INFO_BYTES ≤ s.base_addr
  /-- The whole capacity is addressable from the usable space. -/
  room : s.base_addr + ADDR_INFO_BYTES + s.size < SIZE_T
  /-- Every payload start is a pointer some call has returned. -/
  known : ∀ q ∈ payloads s.base_addr bs, q ∈ issued

/-! ## The scan loop, instrumented -/

/-- The addresses at which the body of the scan loop runs when no iteration
returns early (the loop of `scm_allocated_addr` for an address it does not
find, the loop of `scm_malloc` when no block is reused): `addr` starts at
`scm_mbase`, the body runs while `addr < limit`, and each iteration moves
`addr` by the size stored before it plus `ADDR_INFO_BYTES`.  The result is
`none` when more than `fuel` iterations are needed. -/
def scan_visits (m : Mem) (limit : Nat) : Nat → Nat → Option (List Nat)
  | fuel, addr =>
    if addr < limit then
      match fuel with
      | 0 => none
      | fuel + 1 =>
        (scan_visits m limit fuel
          (padd (padd addr (readWord m (psub addr (2 * WORD) + WORD))) ADDR_INFO_BYTES)).map
          (fun vs => addr :: vs)
    else some []

/-- The test of the loop of `scm_malloc` on the block with payload address
`a`: flag 0 and stored size at least `n`. -/
def reusable (m : Mem) (n a : Nat) : Bool :=
  decide (readWord m (psub a (2 * WORD)) = 0 ∧ readWord m (psub a (2 * WORD) + WORD) ≥ n)

/-! ## The header mirrors the record -/

/-- The three header words hold the sentinel and the two counters of the
record. -/
structure Mirror (s : scm) : Prop where
  /-- Header word 0 is the sentinel. -/
  sentinel : readWord s.mem s.size_info = SIZE_INFO_ID
  /-- Header word 1 is `used_bytes`. -/
  used : readWord s.mem (s.size_info + WORD) = s.used_bytes
  /-- Header word 2 is `user_bytes`. -/
  user : readWord s.mem (s.size_info + 2 * WORD) = s.user_bytes

/-! ## A freshly issued pointer -/

/-- A call took the region from `s` to `s1` and returned `p`: both regions
are tiled, `p` is the payload start of a block of `s1` whose flag is 1, `p`
is not the payload start of any block that was live in `s`, and the payload
range `[p, p + size)` of that block is disjoint from the range (metadata and
payload) of every other block of `s1`. -/
def IssuedFresh (s s1 : scm) (p : Nat) : Prop :=
  ∃ (bs pre : List Block) (b : Block) (post : List Block),
    Tiled s bs ∧ Tiled s1 (pre ++ b :: post) ∧
    p = s1.base_addr + blocksBytes pre + ADDR_INFO_BYTES ∧ b.flag = 1 ∧
    (∀ pre0 c post0, bs = pre0 ++ c :: post0 → c.flag = 1 →
      p ≠ s.base_addr + blocksBytes pre0 + ADDR_INFO_BYTES) ∧
    (∀ pre1 c post1, pre ++ b :: post = pre1 ++ c :: post1 → pre1.length ≠ pre.length →
      s1.base_addr + blocksBytes pre1 + ADDR_INFO_BYTES + c.size ≤ p ∨
        p + b.size ≤ s1.base_addr + blocksBytes pre1)

/-! ## Closing and reopening -/

/-- The backing file after `scm_close`: `msync` writes the `size` mapped bytes
back, the length of the file is as before, and there is no byte past the end
of the file (a later mapping reads zero there). -/
def closeFile (s : scm) : File :=
  { openable := true
    regular := true
    size := s.size
    data := fun k => if k < s.size then scm_close s (s.mapped_addr + k) else 0
    mappable := true }

/-- The region `scm_open` returns, without `truncate`, on the file that
`scm_close` of `regionAB` leaves. -/
def regionABreopened : scm := { regionAB with mem := mapFile (closeFile regionAB) }

/-- The region after three calls of `scm_malloc` on the freshly reset
4096-byte file, with 208, `SIZE_MAX - 14` and `SIZE_MAX` bytes: the last two
requests pass the capacity check by wrap-around, and the metadata of the third
block lies over the size word of the second one. -/
def regionOverlap : scm :=
  appended (appended (appended (resetRegion (constFile 4096 0)) 208) (SIZE_MAX - 14)) SIZE_MAX

/-! # Lemmas -/

/-! ## Memory lemmas -/

theorem readWord_lt (m : Mem) (a : Nat) : readWord m a < SIZE_T := by
  unfold readWord SIZE_T
  omega

theorem readWord_congr (m m' : Mem) (a : Nat)
    (h : ∀ x, a ≤ x → x < a + 8 → m' x = m x) : readWord m' a = readWord m a := by
  unfold readWord
  rw [h a (by omega) (by omega), h (a + 1) (by omega) (by omega),
    h (a + 2) (by omega) (by omega), h (a + 3) (by omega) (by omega),
    h (a + 4) (by omega) (by omega), h (a + 5) (by omega) (by omega),
    h (a + 6) (by omega) (by omega), h (a + 7) (by omega) (by omega)]

theorem writeWord_outside (m : Mem) (a v x : Nat) (h : x < a ∨ a + 8 ≤ x) :
    writeWord m a v x = m x := by
  unfold writeWord
  rw [if_neg (by omega)]

theorem readWord_writeWord_same (m : Mem) (a v : Nat) :
    readWord (writeWord m a v) a = v % SIZE_T := by
  have h : ∀ i, i < 8 → writeWord m a v (a + i) = v / 256 ^ i % 256 := by
    intro i hi
    unfold writeWord
    rw [if_pos (by omega)]
    congr 3
    omega
  have h0 := h 0 (by omega)
  simp only [Nat.add_zero] at h0
  unfold readWord SIZE_T
  rw [h0, h 1 (by omega), h 2 (by omega), h 3 (by omega), h 4 (by omega),
    h 5 (by omega), h 6 (by omega), h 7 (by omega)]
  norm_num
  omega

theorem readWord_writeWord_disjoint (m : Mem) (a v b : Nat) (h : b + 8 ≤ a ∨ a + 8 ≤ b) :
    readWord (writeWord m a v) b = readWord m b := by
  apply readWord_congr
  intro x h1 h2
  exact writeWord_outside m a v x (by omega)

/-! ## Layout lemmas -/

theorem blocksBytes_append (xs ys : List Block) :
    blocksBytes (xs ++ ys) = blocksBytes xs + blocksBytes ys := by
  induction xs with
  | nil => simp [blocksBytes]
  | cons b xs ih => simp [blocksBytes, ih]; omega

theorem tiles_le (m : Mem) (bs : List Block) : ∀ o e, tiles m o bs e → o + blocksBytes bs = e := by
  induction bs with
  | nil => intro o e h; simpa [tiles, blocksBytes] using h
  | cons b bs ih =>
    intro o e h
    obtain ⟨_, _, h3⟩ := h
    have := ih _ _ h3
    simp only [blocksBytes]
    omega

/-- Tiling depends only on the bytes of the tiled area. -/
theorem tiles_congr (m m' : Mem) (bs : List Block) :
    ∀ o e, (∀ x, o ≤ x → x < e → m' x = m x) → tiles m o bs e → tiles m' o bs e := by
  induction bs with
  | nil => intro o e _ h; exact h
  | cons b bs ih =>
    intro o e hm h
    obtain ⟨h1, h2, h3⟩ := h
    have hle := tiles_le m bs _ _ h3
    unfold ADDR_INFO_BYTES WORD at hle
    refine ⟨?_, ?_, ?_⟩
    · rw [← h1]; exact readWord_congr m m' o (fun x hx1 hx2 => hm x hx1 (by omega))
    · rw [← h2]; unfold WORD
      exact readWord_congr m m' (o + 8) (fun x hx1 hx2 => hm x (by omega) (by omega))
    · exact ih _ _ (fun x hx1 hx2 => hm x (by unfold ADDR_INFO_BYTES WORD at hx1; omega) hx2) h3

/-! ## Pointer arithmetic without wrap-around -/

theorem padd_eq (a k : Nat) (h : a + k < SIZE_T) : padd a k = a + k := by
  unfold padd
  exact Nat.mod_eq_of_lt h

theorem psub_eq (a : Nat) (h1 : 16 ≤ a) (h2 : a < SIZE_T) : psub a (2 * WORD) = a - 16 := by
  unfold psub WORD
  unfold SIZE_T at *
  omega

/-! ## The scan loops on a tiled area -/

theorem malloc_scan_step (m : Mem) (limit n fuel addr : Nat) (h : addr < limit) :
    malloc_scan m limit n (fuel + 1) addr =
      if readWord m (psub addr (2 * WORD)) = 0 ∧ readWord m (psub addr (2 * WORD) + WORD) ≥ n then
        some (some addr)
      else
        malloc_scan m limit n fuel
          (padd (padd addr (readWord m (psub addr (2 * WORD) + WORD))) ADDR_INFO_BYTES) := by
  rw [malloc_scan, if_pos h]

theorem malloc_scan_done (m : Mem) (limit n fuel addr : Nat) (h : ¬ addr < limit) :
    malloc_scan m limit n fuel addr = some none := by
  cases fuel <;> simp [malloc_scan, h]

theorem malloc_scan_found (m : Mem) (n : Nat) (b : Block) (post : List Block)
    (hb : b.flag = 0) (hn : n ≤ b.size) :
    ∀ (pre : List Block) (o e fuel : Nat),
      tiles m o (pre ++ b :: post) e → e + 16 < SIZE_T →
      (∀ c ∈ pre, ¬ (c.flag = 0 ∧ n ≤ c.size)) → pre.length < fuel →
      malloc_scan m (e + 16) n fuel (o + 16) = some (some (o + blocksBytes pre + 16)) := by
  intro pre
  induction pre with
  | nil =>
    intro o e fuel ht he _ hf
    obtain ⟨f, rfl⟩ : ∃ f, fuel = f + 1 := ⟨fuel - 1, by simp at hf; omega⟩
    obtain ⟨h1, h2, h3⟩ := ht
    have hle := tiles_le m _ _ _ h3
    unfold ADDR_INFO_BYTES WORD at hle
    rw [malloc_scan_step m _ n f _ (by omega), psub_eq _ (by omega) (by omega)]
    have e1 : o + 16 - 16 = o := by omega
    rw [e1, h1, h2, if_pos ⟨hb, hn⟩]
    simp [blocksBytes]
  | cons c pre ih =>
    intro o e fuel ht he hpre hf
    obtain ⟨f, rfl⟩ : ∃ f, fuel = f + 1 := ⟨fuel - 1, by simp at hf; omega⟩
    obtain ⟨h1, h2, h3⟩ := ht
    have hle := tiles_le m _ _ _ h3
    unfold ADDR_INFO_BYTES WORD at hle h3
    rw [malloc_scan_step m _ n f _ (by omega), psub_eq _ (by omega) (by omega)]
    have e1 : o + 16 - 16 = o := by omega
    have hc := hpre c (List.mem_cons_self _ _)
    rw [e1, h1, h2, if_neg hc]
    unfold ADDR_INFO_BYTES WORD
    rw [padd_eq (o + 16) c.size (by omega), padd_eq _ _ (by omega)]
    have e2 : o + 16 + c.size + 2 * 8 = (o + 2 * 8 + c.size) + 16 := by omega
    rw [e2, ih _ e f h3 he (fun d hd => hpre d (List.mem_cons_of_mem _ hd))
      (by simp at hf; omega)]
    simp only [blocksBytes, ADDR_INFO_BYTES, WORD]
    congr 2
    omega

theorem malloc_scan_none (m : Mem) (n : Nat) :
    ∀ (bs : List Block) (o e fuel : Nat),
      tiles m o bs e → e + 16 < SIZE_T →
      (∀ c ∈ bs, ¬ (c.flag = 0 ∧ n ≤ c.size)) → bs.length ≤ fuel →
      malloc_scan m (e + 16) n fuel (o + 16) = some none := by
  intro bs
  induction bs with
  | nil =>
    intro o e fuel ht _ _ _
    have : o = e := ht
    exact malloc_scan_done m _ n fuel _ (by omega)
  | cons c bs ih =>
    intro o e fuel ht he hbs hf
    obtain ⟨f, rfl⟩ : ∃ f, fuel = f + 1 := ⟨fuel - 1, by simp at hf; omega⟩
    obtain ⟨h1, h2, h3⟩ := ht
    have hle := tiles_le m _ _ _ h3
    unfold ADDR_INFO_BYTES WORD at hle h3
    rw [malloc_scan_step m _ n f _ (by omega), psub_eq _ (by omega) (by omega)]
    have e1 : o + 16 - 16 = o := by omega
    have hc := hbs c (List.mem_cons_self _ _)
    rw [e1, h1, h2, if_neg hc]
    unfold ADDR_INFO_BYTES WORD
    rw [padd_eq (o + 16) c.size (by omega), padd_eq _ _ (by omega)]
    have e2 : o + 16 + c.size + 2 * 8 = (o + 2 * 8 + c.size) + 16 := by omega
    rw [e2]
    exact ih _ e f h3 he (fun d hd => hbs d (List.mem_cons_of_mem _ hd)) (by simp at hf; omega)

theorem tiles_set_flag (m : Mem) (v : Nat) (hv : v < SIZE_T) (b : Block) (post : List Block) :
    ∀ (pre : List Block) (o e : Nat), tiles m o (pre ++ b :: post) e →
      tiles (writeWord m (o + blocksBytes pre) v) o (pre ++ { b with flag := v } :: post) e := by
  intro pre
  induction pre with
  | nil =>
    intro o e ht
    obtain ⟨_, h2, h3⟩ := ht
    simp only [blocksBytes, Nat.add_zero, List.nil_append]
    refine ⟨?_, ?_, ?_⟩
    · rw [readWord_writeWord_same]; exact Nat.mod_eq_of_lt hv
    · rw [readWord_writeWord_disjoint _ _ _ _ (by unfold WORD; omega)]; exact h2
    · exact tiles_congr m _ post _ e
        (fun x hx _ => writeWord_outside m o v x (by unfold ADDR_INFO_BYTES WORD at hx; omega)) h3
  | cons c pre ih =>
    intro o e ht
    obtain ⟨h1, h2, h3⟩ := ht
    have e1 : o + blocksBytes (c :: pre) = (o + ADDR_INFO_BYTES + c.size) + blocksBytes pre := by
      simp only [blocksBytes]; omega
    rw [e1]
    refine ⟨?_, ?_, ih _ e h3⟩
    · rw [readWord_writeWord_disjoint _ _ _ _ (by unfold ADDR_INFO_BYTES WORD; omega)]; exact h1
    · rw [readWord_writeWord_disjoint _ _ _ _ (by unfold ADDR_INFO_BYTES WORD; omega)]; exact h2

theorem payloads_append (pre rest : List Block) :
    ∀ o, payloads o (pre ++ rest) = payloads o pre ++ payloads (o + blocksBytes pre) rest := by
  induction pre with
  | nil => intro o; simp [payloads, blocksBytes]
  | cons c pre ih =>
    intro o
    have e1 : o + ADDR_INFO_BYTES + c.size + blocksBytes pre
        = o + (ADDR_INFO_BYTES + c.size + blocksBytes pre) := by omega
    show (o + ADDR_INFO_BYTES) :: payloads (o + ADDR_INFO_BYTES + c.size) (pre ++ rest) =
      (o + ADDR_INFO_BYTES) :: payloads (o + ADDR_INFO_BYTES + c.size) pre ++
        payloads (o + (ADDR_INFO_BYTES + c.size + blocksBytes pre)) rest
    rw [ih, e1]
    rfl

theorem payloads_length (bs : List Block) : ∀ o, (payloads o bs).length = bs.length := by
  induction bs with
  | nil => intro o; rfl
  | cons c bs ih => intro o; simp [payloads, ih]

theorem payloads_get (pre post : List Block) (b : Block) (o : Nat) :
    (payloads o (pre ++ b :: post))[pre.length]? = some (o + blocksBytes pre + ADDR_INFO_BYTES) := by
  rw [payloads_append, List.getElem?_append_right (by rw [payloads_length])]
  simp [payloads_length, payloads]

theorem tiled_used (s : scm) (bs : List Block) (h : Tiled s bs) :
    s.used_bytes = blocksBytes bs := by
  have := tiles_le _ _ _ _ h.layout
  omega

/-- Reuse path of `scm_malloc` on a tiled area. -/
theorem malloc_reuse (s : scm) (pre post : List Block) (b : Block) (n fuel : Nat)
    (ht : Tiled s (pre ++ b :: post)) (hfree : b.flag = 0) (hsz : n ≤ b.size)
    (hfirst : ∀ c ∈ pre, ¬ (c.flag = 0 ∧ n ≤ c.size)) (hfuel : pre.length < fuel) :
    scm_malloc fuel s n =
      some ({ s with mem := writeWord s.mem (s.base_addr + blocksBytes pre) 1 },
        s.base_addr + blocksBytes pre + ADDR_INFO_BYTES) := by
  have hu := tiled_used s _ ht
  have hf := ht.fits
  rw [blocksBytes_append] at hu
  simp only [blocksBytes] at hu
  unfold ADDR_INFO_BYTES WORD at hu hf ⊢
  have hbase : scm_mbase s = s.base_addr + 16 := by
    unfold scm_mbase WORD
    rw [if_pos (by omega), padd_eq _ _ (by omega)]
  have hlim : padd (s.base_addr + 16) s.used_bytes = s.base_addr + s.used_bytes + 16 := by
    rw [padd_eq _ _ (by omega)]; omega
  unfold scm_malloc
  simp only [hbase, hlim]
  rw [malloc_scan_found s.mem n b post hfree hsz pre s.base_addr _ fuel ht.layout (by omega)
    hfirst hfuel]
  simp only
  rw [psub_eq _ (by omega) (by omega)]
  have e1 : s.base_addr + blocksBytes pre + 16 - 16 = s.base_addr + blocksBytes pre := by omega
  rw [e1]

theorem blocksBytes_eq_zero (bs : List Block) (h : blocksBytes bs = 0) : bs = [] := by
  cases bs with
  | nil => rfl
  | cons b bs => simp only [blocksBytes, ADDR_INFO_BYTES, WORD] at h; omega

theorem WellFormed.tiled {s : scm} {bs : List Block} (h : WellFormed s bs) : Tiled s bs :=
  ⟨h.layout, by have := h.cap; have := h.fits; omega⟩

theorem liveBytes_le (bs : List Block) : liveBytes bs ≤ blocksBytes bs := by
  induction bs with
  | nil => simp [liveBytes, blocksBytes]
  | cons b bs ih => simp only [liveBytes, blocksBytes]; split <;> omega

theorem liveBytes_append (xs ys : List Block) :
    liveBytes (xs ++ ys) = liveBytes xs + liveBytes ys := by
  induction xs with
  | nil => simp [liveBytes]
  | cons b xs ih => simp [liveBytes, ih]; omega

/-- On a tiled area without a fitting free block the loop of `scm_malloc`
runs to its end. -/
theorem malloc_scan_tiled_none (s : scm) (bs : List Block) (n fuel : Nat)
    (ht : Tiled s bs) (hnone : ∀ c ∈ bs, ¬ (c.flag = 0 ∧ n ≤ c.size))
    (hfuel : bs.length ≤ fuel) :
    malloc_scan s.mem (padd (scm_mbase s) s.used_bytes) n fuel (scm_mbase s) = some none := by
  have hu := tiled_used s _ ht
  have hf := ht.fits
  unfold ADDR_INFO_BYTES WORD at hf
  by_cases h0 : s.used_bytes = 0
  · have hb : scm_mbase s = s.base_addr := by unfold scm_mbase; rw [if_neg (by omega)]
    rw [hb, h0, padd_eq _ _ (by omega)]
    exact malloc_scan_done _ _ _ _ _ (by omega)
  · have hbase : scm_mbase s = s.base_addr + 16 := by
      unfold scm_mbase WORD
      rw [if_pos h0, padd_eq _ _ (by omega)]
    have hlim : padd (s.base_addr + 16) s.used_bytes = s.base_addr + s.used_bytes + 16 := by
      rw [padd_eq _ _ (by omega)]; omega
    rw [hbase, hlim]
    exact malloc_scan_none s.mem n bs s.base_addr _ fuel ht.layout (by omega) hnone hfuel

theorem tiles_snoc (m m' : Mem) (f sz : Nat) (bs : List Block) :
    ∀ (o e : Nat), tiles m o bs e → (∀ x, o ≤ x → x < e → m' x = m x) →
      readWord m' e = f → readWord m' (e + WORD) = sz →
      tiles m' o (bs ++ [⟨f, sz⟩]) (e + ADDR_INFO_BYTES + sz) := by
  induction bs with
  | nil =>
    intro o e ht _ h1 h2
    have : o = e := ht
    subst this
    exact ⟨h1, h2, rfl⟩
  | cons b bs ih =>
    intro o e ht hm h1 h2
    obtain ⟨g1, g2, g3⟩ := ht
    have hle := tiles_le m bs _ _ g3
    unfold ADDR_INFO_BYTES WORD at hle
    refine ⟨?_, ?_, ?_⟩
    · rw [← g1]; exact readWord_congr m m' o (fun x hx1 hx2 => hm x hx1 (by omega))
    · rw [← g2]; unfold WORD
      exact readWord_congr m m' (o + 8) (fun x hx1 hx2 => hm x (by omega) (by omega))
    · exact ih _ e g3 (fun x hx1 hx2 => hm x (by unfold ADDR_INFO_BYTES WORD at hx1; omega) hx2)
        h1 h2

/-- Append path of `scm_malloc` on a tiled area: no free block fits and the
capacity check of the code passes.  The call returns when the metadata of the
new block lies in the mapped pages, and does not return otherwise. -/
theorem malloc_append_cases (s : scm) (bs : List Block) (n fuel : Nat)
    (ht : Tiled s bs) (hnone : ∀ c ∈ bs, ¬ (c.flag = 0 ∧ n ≤ c.size))
    (hcap : ¬ (s.used_bytes + n + ADDR_INFO_BYTES) % SIZE_T > s.size) (hfuel : bs.length ≤ fuel) :
    scm_malloc fuel s n =
      if mapped s (s.base_addr + s.used_bytes) ADDR_INFO_BYTES then
        some (appended s n, s.base_addr + s.used_bytes + ADDR_INFO_BYTES)
      else none := by
  have hf := ht.fits
  unfold scm_malloc
  dsimp only
  rw [malloc_scan_tiled_none s bs n fuel ht hnone hfuel]
  dsimp only
  rw [if_neg hcap]
  have e4 : (s.used_bytes + (n + ADDR_INFO_BYTES) % SIZE_T) % SIZE_T
      = (s.used_bytes + n + ADDR_INFO_BYTES) % SIZE_T := by
    rw [Nat.add_mod_mod, Nat.add_assoc]
  rw [e4, padd_eq s.base_addr s.used_bytes (by omega), padd_eq _ _ (by omega)]
  rfl

/-- Append path of `scm_malloc` when the metadata of the new block lies in
the mapped pages. -/
theorem malloc_append (s : scm) (bs : List Block) (n fuel : Nat)
    (ht : Tiled s bs) (hnone : ∀ c ∈ bs, ¬ (c.flag = 0 ∧ n ≤ c.size))
    (hcap : ¬ (s.used_bytes + n + ADDR_INFO_BYTES) % SIZE_T > s.size) (hfuel : bs.length ≤ fuel)
    (hmap : mapped s (s.base_addr + s.used_bytes) ADDR_INFO_BYTES) :
    scm_malloc fuel s n =
      some (appended s n, s.base_addr + s.used_bytes + ADDR_INFO_BYTES) := by
  rw [malloc_append_cases s bs n fuel ht hnone hcap hfuel, if_pos hmap]

/-- Append path of `scm_malloc`: a result is the appended region. -/
theorem malloc_append_some (s : scm) (bs : List Block) (n fuel : Nat)
    (ht : Tiled s bs) (hnone : ∀ c ∈ bs, ¬ (c.flag = 0 ∧ n ≤ c.size))
    (hcap : ¬ (s.used_bytes + n + ADDR_INFO_BYTES) % SIZE_T > s.size) (hfuel : bs.length ≤ fuel)
    (s1 : scm) (p : Nat) (h : scm_malloc fuel s n = some (s1, p)) :
    s1 = appended s n ∧ p = s.base_addr + s.used_bytes + ADDR_INFO_BYTES := by
  rw [malloc_append_cases s bs n fuel ht hnone hcap hfuel] at h
  split at h
  · obtain ⟨h1, h2⟩ := Prod.mk.inj (Option.some.inj h)
    exact ⟨h1.symm, h2.symm⟩
  · simp at h

/-- Without wrap-around the counters after the append path are the sums. -/
theorem appended_counters (s : scm) (bs : List Block) (n : Nat)
    (hw : WellFormed s bs) (hcap : s.used_bytes + n + ADDR_INFO_BYTES ≤ s.size) :
    (appended s n).used_bytes = s.used_bytes + n + ADDR_INFO_BYTES ∧
      (appended s n).user_bytes = s.user_bytes + n := by
  have hf := hw.fits
  have hu := hw.user
  have hl := liveBytes_le bs
  have hb := tiled_used s bs hw.tiled
  constructor
  · exact Nat.mod_eq_of_lt (by omega)
  · exact Nat.mod_eq_of_lt (by omega)

/-- The append path of `scm_malloc` keeps a region well formed. -/
theorem appended_wellFormed (s : scm) (bs : List Block) (n : Nat)
    (hw : WellFormed s bs) (hcap : s.used_bytes + n + ADDR_INFO_BYTES ≤ s.size) :
    WellFormed (appended s n) (bs ++ [⟨1, n⟩]) := by
  have hf := hw.fits
  have hh := hw.header
  have hb := hw.base
  obtain ⟨hc1, hc2⟩ := appended_counters s bs n hw hcap
  unfold ADDR_INFO_BYTES WORD at hf hcap
  unfold SIZE_INFO_BYTES WORD at hb
  refine ⟨hw.header, hw.base, ?_, ?_, by rw [hc1]; exact hcap, hw.fits⟩
  · have e1 : (appended s n).base_addr + (appended s n).used_bytes
        = s.base_addr + s.used_bytes + ADDR_INFO_BYTES + n := by
      rw [hc1]; show s.base_addr + _ = _; omega
    rw [e1]
    apply tiles_snoc s.mem _ 1 n bs s.base_addr _ hw.layout
    · intro x hx1 hx2
      simp only [appended, WORD]
      rw [writeWord_outside _ _ _ _ (by omega), writeWord_outside _ _ _ _ (by omega),
        writeWord_outside _ _ _ _ (by omega), writeWord_outside _ _ _ _ (by omega)]
    · simp only [appended, WORD]
      rw [readWord_writeWord_disjoint _ _ _ _ (by omega),
        readWord_writeWord_disjoint _ _ _ _ (by omega),
        readWord_writeWord_disjoint _ _ _ _ (by omega), readWord_writeWord_same]
      rfl
    · simp only [appended, WORD]
      rw [readWord_writeWord_disjoint _ _ _ _ (by omega),
        readWord_writeWord_disjoint _ _ _ _ (by omega), readWord_writeWord_same]
      exact Nat.mod_eq_of_lt (by omega)
  · rw [hc2, liveBytes_append, hw.user]
    simp [liveBytes]

/-- After the append path the new block's metadata and the header words hold
what the code stored, when the header lies below the usable space. -/
theorem appended_words (s : scm) (n : Nat) (hn : n < SIZE_T)
    (hh : s.size_info + SIZE_INFO_BYTES ≤ s.base_addr) :
    readWord (appended s n).mem (s.base_addr + s.used_bytes) = 1 ∧
      readWord (appended s n).mem (s.base_addr + s.used_bytes + WORD) = n ∧
      readWord (appended s n).mem (s.size_info + WORD) = (appended s n).used_bytes ∧
      readWord (appended s n).mem (s.size_info + 2 * WORD) = (appended s n).user_bytes := by
  unfold SIZE_INFO_BYTES WORD at hh
  simp only [appended, WORD]
  refine ⟨?_, ?_, ?_, ?_⟩
  · rw [readWord_writeWord_disjoint _ _ _ _ (by omega),
      readWord_writeWord_disjoint _ _ _ _ (by omega),
      readWord_writeWord_disjoint _ _ _ _ (by omega), readWord_writeWord_same]
    rfl
  · rw [readWord_writeWord_disjoint _ _ _ _ (by omega),
      readWord_writeWord_disjoint _ _ _ _ (by omega), readWord_writeWord_same]
    exact Nat.mod_eq_of_lt hn
  · rw [readWord_writeWord_disjoint _ _ _ _ (by omega), readWord_writeWord_same]
    exact Nat.mod_mod _ _
  · rw [readWord_writeWord_same]
    exact Nat.mod_mod _ _

theorem allocated_scan_step (m : Mem) (limit p fuel addr : Nat) (h : addr < limit) :
    allocated_scan m limit p (fuel + 1) addr =
      if addr = p then some true
      else
        allocated_scan m limit p fuel
          (padd (padd addr (readWord m (psub addr (2 * WORD) + WORD))) ADDR_INFO_BYTES) := by
  rw [allocated_scan, if_pos h]

theorem allocated_scan_done (m : Mem) (limit p fuel addr : Nat) (h : ¬ addr < limit) :
    allocated_scan m limit p fuel addr = some false := by
  cases fuel <;> simp [allocated_scan, h]

theorem allocated_scan_tiles (m : Mem) (p : Nat) :
    ∀ (bs : List Block) (o e fuel : Nat),
      tiles m o bs e → e + 16 < SIZE_T → bs.length ≤ fuel →
      allocated_scan m (e + 16) p fuel (o + 16) = some (decide (p ∈ payloads o bs)) := by
  intro bs
  induction bs with
  | nil =>
    intro o e fuel ht _ _
    have : o = e := ht
    rw [allocated_scan_done m _ p fuel _ (by omega)]
    simp [payloads]
  | cons c bs ih =>
    intro o e fuel ht he hf
    obtain ⟨f, rfl⟩ : ∃ f, fuel = f + 1 := ⟨fuel - 1, by simp at hf; omega⟩
    obtain ⟨_, h2, h3⟩ := ht
    have hle := tiles_le m _ _ _ h3
    unfold ADDR_INFO_BYTES WORD at hle h3
    rw [allocated_scan_step m _ p f _ (by omega)]
    by_cases hp : o + 16 = p
    · rw [if_pos hp]
      simp [payloads, ADDR_INFO_BYTES, WORD, hp.symm]
    · rw [if_neg hp, psub_eq _ (by omega) (by omega)]
      have e1 : o + 16 - 16 + WORD = o + WORD := by omega
      rw [e1, h2]
      unfold ADDR_INFO_BYTES WORD
      rw [padd_eq (o + 16) c.size (by omega), padd_eq _ _ (by omega)]
      have e2 : o + 16 + c.size + 2 * 8 = (o + 2 * 8 + c.size) + 16 := by omega
      rw [e2, ih _ e f h3 he (by simp at hf; omega)]
      have hp2 : ¬ p = o + 16 := fun h => hp h.symm
      simp [payloads, ADDR_INFO_BYTES, WORD, hp2]

/-- Function `scm_allocated_addr` on a tiled area decides membership among the
payload start addresses. -/
theorem allocated_addr_tiled (s : scm) (bs : List Block) (p fuel : Nat)
    (ht : Tiled s bs) (hfuel : bs.length ≤ fuel) :
    scm_allocated_addr fuel s p = some (decide (p ∈ payloads s.base_addr bs)) := by
  have hu := tiled_used s _ ht
  have hf := ht.fits
  unfold ADDR_INFO_BYTES WORD at hf
  unfold scm_allocated_addr
  dsimp only
  by_cases h0 : s.used_bytes = 0
  · have hb : scm_mbase s = s.base_addr := by unfold scm_mbase; rw [if_neg (by omega)]
    have hnil : bs = [] := blocksBytes_eq_zero bs (by omega)
    rw [hb, h0, padd_eq _ _ (by omega), allocated_scan_done _ _ _ _ _ (by omega), hnil]
    simp [payloads]
  · have hbase : scm_mbase s = s.base_addr + 16 := by
      unfold scm_mbase WORD
      rw [if_pos h0, padd_eq _ _ (by omega)]
    have hlim : padd (s.base_addr + 16) s.used_bytes = s.base_addr + s.used_bytes + 16 := by
      rw [padd_eq _ _ (by omega)]; omega
    rw [hbase, hlim]
    exact allocated_scan_tiles s.mem p bs s.base_addr _ fuel ht.layout (by omega) hfuel

theorem payloads_ge (bs : List Block) : ∀ o q, q ∈ payloads o bs → o + ADDR_INFO_BYTES ≤ q := by
  induction bs with
  | nil => intro o q h; simp [payloads] at h
  | cons c bs ih =>
    intro o q h
    simp only [payloads, List.mem_cons] at h
    rcases h with h | h
    · omega
    · have := ih _ _ h
      omega

theorem payloads_le (bs : List Block) : ∀ o q, q ∈ payloads o bs → q ≤ o + blocksBytes bs := by
  induction bs with
  | nil => intro o q h; simp [payloads] at h
  | cons c bs ih =>
    intro o q h
    simp only [payloads, List.mem_cons] at h
    simp only [blocksBytes]
    rcases h with h | h
    · omega
    · have := ih _ _ h
      omega

/-- A payload start address is never strictly inside a block's metadata or
strictly inside its payload. -/
theorem payloads_not_inside (pre post : List Block) (b : Block) (o q : Nat)
    (hq : q ∈ payloads o (pre ++ b :: post)) :
    ¬ (o + blocksBytes pre < q ∧ q < o + blocksBytes pre + ADDR_INFO_BYTES) ∧
      ¬ (o + blocksBytes pre + ADDR_INFO_BYTES < q ∧
        q < o + blocksBytes pre + ADDR_INFO_BYTES + b.size) := by
  rw [payloads_append] at hq
  simp only [List.mem_append, payloads, List.mem_cons] at hq
  rcases hq with h | h | h
  · have := payloads_le _ _ _ h
    omega
  · omega
  · have := payloads_ge _ _ _ h
    omega

theorem payloads_mem (pre post : List Block) (b : Block) (o : Nat) :
    o + blocksBytes pre + ADDR_INFO_BYTES ∈ payloads o (pre ++ b :: post) := by
  rw [payloads_append]
  simp [payloads]

theorem tiles_size_at (m : Mem) (post : List Block) :
    ∀ (pre : List Block) (o e : Nat) (c : Block),
      tiles m o (pre ++ c :: post) e → readWord m (o + blocksBytes pre + WORD) = c.size := by
  intro pre
  induction pre with
  | nil => intro o e c h; simpa [blocksBytes] using h.2.1
  | cons d pre ih =>
    intro o e c h
    have := ih _ _ c h.2.2
    simp only [blocksBytes]
    rw [← this]; congr 1; omega

theorem tiles_flag_at (m : Mem) (post : List Block) :
    ∀ (pre : List Block) (o e : Nat) (c : Block),
      tiles m o (pre ++ c :: post) e → readWord m (o + blocksBytes pre) = c.flag := by
  intro pre
  induction pre with
  | nil => intro o e c h; simpa [blocksBytes] using h.1
  | cons d pre ih =>
    intro o e c h
    have := ih _ _ c h.2.2
    simp only [blocksBytes]
    rw [← this]; congr 1; omega

/-- Function `scm_free` on the payload start of a block of a tiled area. -/
theorem free_block (s : scm) (pre post : List Block) (b : Block) (fuel : Nat)
    (ht : Tiled s (pre ++ b :: post)) (hfuel : (pre ++ b :: post).length ≤ fuel) :
    scm_free fuel s (s.base_addr + blocksBytes pre + ADDR_INFO_BYTES) =
      some (released s (s.base_addr + blocksBytes pre) b.size) := by
  have hu := tiled_used s _ ht
  have hf := ht.fits
  rw [blocksBytes_append] at hu
  simp only [blocksBytes] at hu
  have hsz := tiles_size_at s.mem post pre _ _ b ht.layout
  have hps : psub (s.base_addr + blocksBytes pre + ADDR_INFO_BYTES) (2 * WORD)
      = s.base_addr + blocksBytes pre := by
    rw [psub_eq _ (by unfold ADDR_INFO_BYTES WORD; omega)
      (by unfold ADDR_INFO_BYTES WORD at *; omega)]
    unfold ADDR_INFO_BYTES WORD; omega
  unfold scm_free
  rw [allocated_addr_tiled s _ _ fuel ht hfuel]
  simp only [payloads_mem, decide_True]
  rw [hps, readWord_writeWord_disjoint _ _ _ _ (by unfold WORD; omega), hsz]
  rfl

/-- Opening with `truncate` set (or a file without the sentinel) gives the
empty region. -/
theorem open_reset (f : File) (truncate : Int) (ho : f.openable = true)
    (hr : f.regular = true) (hm : f.mappable = true)
    (ht : readWord (mapFile f) VM_START_ADDR ≠ SIZE_INFO_ID ∨ truncate ≠ 0) :
    scm_open f truncate = some (resetRegion f) := by
  unfold scm_open
  simp only [ho, hr, hm, Bool.not_true, Bool.false_eq_true, if_false]
  rw [if_pos ht]
  have h1 : readWord (resetMem f) (VM_START_ADDR + WORD) = 0 := by
    unfold resetMem WORD
    rw [readWord_writeWord_disjoint _ _ _ _ (by omega), readWord_writeWord_same]
    rfl
  have h2 : readWord (resetMem f) (VM_START_ADDR + 2 * WORD) = 0 := by
    unfold resetMem
    rw [readWord_writeWord_same]
    rfl
  have hp : padd VM_START_ADDR SIZE_INFO_BYTES = VM_START_ADDR + SIZE_INFO_BYTES := by
    apply padd_eq
    unfold VM_START_ADDR SIZE_INFO_BYTES WORD SIZE_T
    norm_num
  show some { size := f.size % SIZE_T
              used_bytes := readWord (resetMem f) (VM_START_ADDR + WORD)
              user_bytes := readWord (resetMem f) (VM_START_ADDR + 2 * WORD)
              size_info := VM_START_ADDR
              base_addr := padd VM_START_ADDR SIZE_INFO_BYTES
              mapped_addr := VM_START_ADDR
              mem := resetMem f } = some (resetRegion f)
  rw [h1, h2, hp]
  rfl

/-- The empty region is well formed when the file fits below the top of the
address space. -/
theorem resetRegion_wellFormed (f : File)
    (hs : VM_START_ADDR + SIZE_INFO_BYTES + ADDR_INFO_BYTES + f.size < SIZE_T) :
    WellFormed (resetRegion f) [] := by
  have e : f.size % SIZE_T = f.size := Nat.mod_eq_of_lt (by omega)
  refine ⟨rfl, rfl, ?_, rfl, Nat.zero_le _, ?_⟩
  · show VM_START_ADDR + SIZE_INFO_BYTES = VM_START_ADDR + SIZE_INFO_BYTES + 0
    omega
  · show VM_START_ADDR + SIZE_INFO_BYTES + ADDR_INFO_BYTES + f.size % SIZE_T < SIZE_T
    rw [e]; exact hs

/-- Releasing a block of a tiled area whose header lies below the usable
space keeps the area tiled, with that block's flag cleared. -/
theorem released_tiles (s : scm) (pre post : List Block) (b : Block)
    (hh : s.size_info + SIZE_INFO_BYTES ≤ s.base_addr)
    (ht : tiles s.mem s.base_addr (pre ++ b :: post) (s.base_addr + s.used_bytes)) :
    tiles (released s (s.base_addr + blocksBytes pre) b.size).mem s.base_addr
      (pre ++ { b with flag := 0 } :: post) (s.base_addr + s.used_bytes) := by
  have h1 := tiles_set_flag s.mem 0 (by unfold SIZE_T; norm_num) b post pre _ _ ht
  refine tiles_congr _ _ _ _ _ ?_ h1
  intro x hx _
  unfold SIZE_INFO_BYTES WORD at hh
  simp only [released, WORD]
  rw [writeWord_outside _ _ _ _ (by omega)]

/-- Releasing a live block of a well-formed region keeps it well formed. -/
theorem released_wellFormed (s : scm) (pre post : List Block) (b : Block)
    (hw : WellFormed s (pre ++ b :: post)) (hlive : b.flag = 1) :
    WellFormed (released s (s.base_addr + blocksBytes pre) b.size)
        (pre ++ { b with flag := 0 } :: post) ∧
      (released s (s.base_addr + blocksBytes pre) b.size).user_bytes + b.size = s.user_bytes := by
  have hu := hw.user
  rw [liveBytes_append] at hu
  simp only [liveBytes, hlive, if_true] at hu
  have hlt : s.user_bytes < SIZE_T := by
    have := liveBytes_le (pre ++ b :: post)
    have := tiled_used s _ hw.tiled
    have := hw.fits
    have := hw.cap
    have := hw.user
    omega
  have e : (s.user_bytes + SIZE_T - b.size) % SIZE_T = s.user_bytes - b.size := by
    have : s.user_bytes + SIZE_T - b.size = (s.user_bytes - b.size) + SIZE_T := by omega
    rw [this, Nat.add_mod_right]
    exact Nat.mod_eq_of_lt (by omega)
  refine ⟨⟨hw.header, hw.base, ?_, ?_, hw.cap, hw.fits⟩, ?_⟩
  · exact released_tiles s pre post b (by rw [hw.header, hw.base]) hw.layout
  · show (s.user_bytes + SIZE_T - b.size) % SIZE_T = _
    rw [e, liveBytes_append]
    simp only [liveBytes]
    simp
    omega
  · show (s.user_bytes + SIZE_T - b.size) % SIZE_T + b.size = _
    rw [e]; omega

/-- Function `scm_free` returns the region as it is when
`scm_allocated_addr` rejects the address. -/
theorem free_rejected (fuel : Nat) (s : scm) (p : Nat)
    (h : scm_allocated_addr fuel s p = some false) : scm_free fuel s p = some s := by
  unfold scm_free
  rw [h]

/-- In a tiled area the release of an address that is not a payload start
changes nothing. -/
theorem free_not_payload (s : scm) (bs : List Block) (p fuel : Nat) (ht : Tiled s bs)
    (hp : p ∉ payloads s.base_addr bs) (hfuel : bs.length ≤ fuel) :
    scm_free fuel s p = some s := by
  apply free_rejected
  rw [allocated_addr_tiled s bs p fuel ht hfuel]
  simp [hp]

/-! ## Reachable states are tiled -/

theorem malloc_scan_mono (m : Mem) (limit n : Nat) (k : Nat) :
    ∀ (fuel addr : Nat) (r : Option Nat), malloc_scan m limit n fuel addr = some r →
      malloc_scan m limit n (fuel + k) addr = some r := by
  intro fuel
  induction fuel with
  | zero =>
    intro addr r h
    by_cases hl : addr < limit
    · simp [malloc_scan, hl] at h
    · rw [malloc_scan_done _ _ _ _ _ hl] at h ⊢; exact h
  | succ fuel ih =>
    intro addr r h
    by_cases hl : addr < limit
    · rw [malloc_scan_step _ _ _ _ _ hl] at h
      have e : fuel + 1 + k = (fuel + k) + 1 := by omega
      rw [e, malloc_scan_step _ _ _ _ _ hl]
      split at h
      · rename_i hc; rw [if_pos hc]; exact h
      · rename_i hc; rw [if_neg hc]; exact ih _ _ h
    · rw [malloc_scan_done _ _ _ _ _ hl] at h ⊢; exact h

theorem allocated_scan_mono (m : Mem) (limit p : Nat) (k : Nat) :
    ∀ (fuel addr : Nat) (r : Bool), allocated_scan m limit p fuel addr = some r →
      allocated_scan m limit p (fuel + k) addr = some r := by
  intro fuel
  induction fuel with
  | zero =>
    intro addr r h
    by_cases hl : addr < limit
    · simp [allocated_scan, hl] at h
    · rw [allocated_scan_done _ _ _ _ _ hl] at h ⊢; exact h
  | succ fuel ih =>
    intro addr r h
    by_cases hl : addr < limit
    · rw [allocated_scan_step _ _ _ _ _ hl] at h
      have e : fuel + 1 + k = (fuel + k) + 1 := by omega
      rw [e, allocated_scan_step _ _ _ _ _ hl]
      split at h
      · rename_i hc; rw [if_pos hc]; exact h
      · rename_i hc; rw [if_neg hc]; exact ih _ _ h
    · rw [allocated_scan_done _ _ _ _ _ hl] at h ⊢; exact h

/-- More iterations allowed do not change a result of `scm_malloc`. -/
theorem scm_malloc_mono (fuel k : Nat) (s : scm) (n : Nat) (r : scm × Nat)
    (h : scm_malloc fuel s n = some r) : scm_malloc (fuel + k) s n = some r := by
  unfold scm_malloc at h ⊢
  dsimp only at h ⊢
  cases hs : malloc_scan s.mem (padd (scm_mbase s) s.used_bytes) n fuel (scm_mbase s) with
  | none => rw [hs] at h; simp at h
  | some x =>
    rw [malloc_scan_mono _ _ _ k _ _ _ hs]
    rw [hs] at h
    exact h

/-- More iterations allowed do not change a result of `scm_free`. -/
theorem scm_free_mono (fuel k : Nat) (s : scm) (p : Nat) (r : scm)
    (h : scm_free fuel s p = some r) : scm_free (fuel + k) s p = some r := by
  unfold scm_free scm_allocated_addr at h ⊢
  dsimp only at h ⊢
  cases hs : allocated_scan s.mem (padd (scm_mbase s) s.used_bytes) p fuel (scm_mbase s) with
  | none => rw [hs] at h; simp at h
  | some x =>
    rw [allocated_scan_mono _ _ _ k _ _ _ hs]
    rw [hs] at h
    exact h

theorem first_fit_split (n : Nat) (bs : List Block) :
    (∀ c ∈ bs, ¬ (c.flag = 0 ∧ n ≤ c.size)) ∨
      ∃ pre b post, bs = pre ++ b :: post ∧ (b.flag = 0 ∧ n ≤ b.size) ∧
        ∀ c ∈ pre, ¬ (c.flag = 0 ∧ n ≤ c.size) := by
  induction bs with
  | nil => left; simp
  | cons c bs ih =>
    by_cases hc : c.flag = 0 ∧ n ≤ c.size
    · right; exact ⟨[], c, bs, rfl, hc, by simp⟩
    · rcases ih with h | ⟨pre, b, post, h1, h2, h3⟩
      · left
        intro d hd
        rcases List.mem_cons.mp hd with h' | h'
        · rw [h']; exact hc
        · exact h d h'
      · right
        refine ⟨c :: pre, b, post, by rw [h1]; rfl, h2, ?_⟩
        intro d hd
        rcases List.mem_cons.mp hd with h' | h'
        · rw [h']; exact hc
        · exact h3 d h'

theorem payloads_set_flag (v : Nat) (b : Block) (post : List Block) :
    ∀ (pre : List Block) (o : Nat),
      payloads o (pre ++ { b with flag := v } :: post) = payloads o (pre ++ b :: post) := by
  intro pre o
  rw [payloads_append, payloads_append]
  rfl

theorem payloads_split (bs : List Block) :
    ∀ (o q : Nat), q ∈ payloads o bs →
      ∃ pre b post, bs = pre ++ b :: post ∧ q = o + blocksBytes pre + ADDR_INFO_BYTES := by
  induction bs with
  | nil => intro o q h; simp [payloads] at h
  | cons c bs ih =>
    intro o q h
    simp only [payloads, List.mem_cons] at h
    rcases h with h | h
    · exact ⟨[], c, bs, rfl, by rw [h]; simp [blocksBytes]⟩
    · obtain ⟨pre, b, post, h1, h2⟩ := ih _ _ h
      refine ⟨c :: pre, b, post, by rw [h1]; rfl, ?_⟩
      rw [h2]
      simp only [blocksBytes]
      omega

theorem writeBytes_outside (m : Mem) (a : Nat) (bs : List Nat) (x : Nat)
    (h : x < a ∨ a + bs.length ≤ x) : writeBytes m a bs x = m x := by
  unfold writeBytes
  rw [if_neg (by omega)]

theorem readWord_writeBytes_disjoint (m : Mem) (a : Nat) (bs : List Nat) (b : Nat)
    (h : b + 8 ≤ a ∨ a + bs.length ≤ b) :
    readWord (writeBytes m a bs) b = readWord m b := by
  apply readWord_congr
  intro x h1 h2
  exact writeBytes_outside m a bs x (by omega)

/-- The append path of `scm_malloc` keeps the used area tiled. -/
theorem appended_tiled (s : scm) (bs : List Block) (n : Nat) (ht : Tiled s bs)
    (hh : s.size_info + SIZE_INFO_BYTES ≤ s.base_addr)
    (hroom : s.base_addr + ADDR_INFO_BYTES + (s.used_bytes + n + ADDR_INFO_BYTES) < SIZE_T) :
    Tiled (appended s n) (bs ++ [⟨1, n⟩]) := by
  unfold ADDR_INFO_BYTES WORD at hroom
  unfold SIZE_INFO_BYTES WORD at hh
  have hc1 : (appended s n).used_bytes = s.used_bytes + n + 16 :=
    Nat.mod_eq_of_lt (by unfold ADDR_INFO_BYTES WORD; omega)
  refine ⟨?_, ?_⟩
  · have e1 : (appended s n).base_addr + (appended s n).used_bytes
        = s.base_addr + s.used_bytes + ADDR_INFO_BYTES + n := by
      rw [hc1]; show s.base_addr + _ = _; unfold ADDR_INFO_BYTES WORD; omega
    rw [e1]
    apply tiles_snoc s.mem _ 1 n bs s.base_addr _ ht.layout
    · intro x hx1 hx2
      simp only [appended, WORD]
      rw [writeWord_outside _ _ _ _ (by omega), writeWord_outside _ _ _ _ (by omega),
        writeWord_outside _ _ _ _ (by omega), writeWord_outside _ _ _ _ (by omega)]
    · simp only [appended, WORD]
      rw [readWord_writeWord_disjoint _ _ _ _ (by omega),
        readWord_writeWord_disjoint _ _ _ _ (by omega),
        readWord_writeWord_disjoint _ _ _ _ (by omega), readWord_writeWord_same]
      rfl
    · simp only [appended, WORD]
      rw [readWord_writeWord_disjoint _ _ _ _ (by omega),
        readWord_writeWord_disjoint _ _ _ _ (by omega), readWord_writeWord_same]
      exact Nat.mod_eq_of_lt (by omega)
  · rw [hc1]
    show s.base_addr + ADDR_INFO_BYTES + (s.used_bytes + n + 16) < SIZE_T
    unfold ADDR_INFO_BYTES WORD
    omega

/-- Function `scm_strdup` when the new block's addresses do not wrap around:
the call returns when the metadata and the copied bytes lie in the mapped
pages, and does not return otherwise. -/
theorem strdup_cases (s : scm) (str : List Nat)
    (hroom : s.base_addr + ADDR_INFO_BYTES + s.used_bytes + (str.length + 1) + ADDR_INFO_BYTES
      < SIZE_T) :
    scm_strdup s str =
      if mapped s (s.base_addr + s.used_bytes) ADDR_INFO_BYTES ∧
          mapped s (s.base_addr + s.used_bytes + ADDR_INFO_BYTES) (str.length + 1) then
        some (duplicated s str, s.base_addr + s.used_bytes + ADDR_INFO_BYTES)
      else none := by
  have hp1 : padd s.base_addr s.used_bytes = s.base_addr + s.used_bytes :=
    padd_eq _ _ (by omega)
  have hp2 : padd (s.base_addr + s.used_bytes) ADDR_INFO_BYTES
      = s.base_addr + s.used_bytes + ADDR_INFO_BYTES := padd_eq _ _ (by omega)
  have hm : (str.length + 1) % SIZE_T = str.length + 1 := Nat.mod_eq_of_lt (by omega)
  have hsz : readWord (writeBytes (writeWord (writeWord s.mem (s.base_addr + s.used_bytes) 1)
      (s.base_addr + s.used_bytes + WORD) (str.length + 1))
      (s.base_addr + s.used_bytes + ADDR_INFO_BYTES)
      (str ++ [0])) (s.base_addr + s.used_bytes + WORD) = str.length + 1 := by
    rw [readWord_writeBytes_disjoint _ _ _ _ (by unfold ADDR_INFO_BYTES WORD; omega),
      readWord_writeWord_same, hm]
  have hused : (s.used_bytes + (str.length + 1 + ADDR_INFO_BYTES) % SIZE_T) % SIZE_T
      = s.used_bytes + (str.length + 1) + ADDR_INFO_BYTES := by
    rw [Nat.mod_eq_of_lt (a := str.length + 1 + ADDR_INFO_BYTES) (by omega),
      Nat.mod_eq_of_lt (by omega)]
    omega
  unfold scm_strdup
  dsimp only
  rw [hp1, hp2, hm, hsz, hused]
  rfl

/-- Function `scm_strdup` when the new block lies in the mapped pages. -/
theorem strdup_eq (s : scm) (str : List Nat)
    (hroom : s.base_addr + ADDR_INFO_BYTES + s.used_bytes + (str.length + 1) + ADDR_INFO_BYTES
      < SIZE_T)
    (hmap : mapped s (s.base_addr + s.used_bytes) ADDR_INFO_BYTES ∧
      mapped s (s.base_addr + s.used_bytes + ADDR_INFO_BYTES) (str.length + 1)) :
    scm_strdup s str
      = some (duplicated s str, s.base_addr + s.used_bytes + ADDR_INFO_BYTES) := by
  rw [strdup_cases s str hroom, if_pos hmap]

/-- A result of `scm_strdup` is the duplicated region. -/
theorem strdup_some (s : scm) (str : List Nat)
    (hroom : s.base_addr + ADDR_INFO_BYTES + s.used_bytes + (str.length + 1) + ADDR_INFO_BYTES
      < SIZE_T)
    (s1 : scm) (p : Nat) (h : scm_strdup s str = some (s1, p)) :
    s1 = duplicated s str ∧ p = s.base_addr + s.used_bytes + ADDR_INFO_BYTES := by
  rw [strdup_cases s str hroom] at h
  split at h
  · obtain ⟨h1, h2⟩ := Prod.mk.inj (Option.some.inj h)
    exact ⟨h1.symm, h2.symm⟩
  · simp at h

/-- Function `scm_strdup` keeps the used area tiled, with one more live block
of stored size `strlen + 1`. -/
theorem duplicated_tiled (s : scm) (bs : List Block) (str : List Nat) (ht : Tiled s bs)
    (hh : s.size_info + SIZE_INFO_BYTES ≤ s.base_addr)
    (hroom : s.base_addr + ADDR_INFO_BYTES + s.used_bytes + (str.length + 1) + ADDR_INFO_BYTES
      < SIZE_T) :
    Tiled (duplicated s str) (bs ++ [⟨1, str.length + 1⟩]) := by
  unfold ADDR_INFO_BYTES WORD at hroom
  unfold SIZE_INFO_BYTES WORD at hh
  have hlen : (str ++ [0]).length = str.length + 1 := by simp
  refine ⟨?_, ?_⟩
  · have e1 : (duplicated s str).base_addr + (duplicated s str).used_bytes
        = s.base_addr + s.used_bytes + ADDR_INFO_BYTES + (str.length + 1) := by
      show s.base_addr + (s.used_bytes + (str.length + 1) + ADDR_INFO_BYTES) = _
      omega
    rw [e1]
    apply tiles_snoc s.mem _ 1 (str.length + 1) bs s.base_addr _ ht.layout
    · intro x hx1 hx2
      simp only [duplicated, WORD, ADDR_INFO_BYTES]
      rw [writeWord_outside _ _ _ _ (by omega), writeWord_outside _ _ _ _ (by omega),
        writeBytes_outside _ _ _ _ (by omega),
        writeWord_outside _ _ _ _ (by omega), writeWord_outside _ _ _ _ (by omega)]
    · simp only [duplicated, WORD, ADDR_INFO_BYTES]
      rw [readWord_writeWord_disjoint _ _ _ _ (by omega),
        readWord_writeWord_disjoint _ _ _ _ (by omega),
        readWord_writeBytes_disjoint _ _ _ _ (by omega),
        readWord_writeWord_disjoint _ _ _ _ (by omega), readWord_writeWord_same]
      rfl
    · simp only [duplicated, WORD, ADDR_INFO_BYTES]
      rw [readWord_writeWord_disjoint _ _ _ _ (by omega),
        readWord_writeWord_disjoint _ _ _ _ (by omega),
        readWord_writeBytes_disjoint _ _ _ _ (by omega), readWord_writeWord_same]
      exact Nat.mod_eq_of_lt (by omega)
  · show s.base_addr + ADDR_INFO_BYTES + (s.used_bytes + (str.length + 1) + ADDR_INFO_BYTES)
      < SIZE_T
    unfold ADDR_INFO_BYTES WORD
    omega

/-- Out-of-memory branch of `scm_malloc`: the loop ends without a reusable
block and the capacity check fails. -/
theorem malloc_oom (fuel : Nat) (s : scm) (n : Nat)
    (hscan : malloc_scan s.mem (padd (scm_mbase s) s.used_bytes) n fuel (scm_mbase s)
      = some none)
    (hcap : (s.used_bytes + n + ADDR_INFO_BYTES) % SIZE_T > s.size) :
    scm_malloc fuel s n = some (s, NULL) := by
  unfold scm_malloc
  dsimp only
  rw [hscan]
  dsimp only
  rw [if_pos hcap]

theorem payloads_snoc (bs : List Block) (b : Block) (o : Nat) :
    payloads o (bs ++ [b]) = payloads o bs ++ [o + blocksBytes bs + ADDR_INFO_BYTES] := by
  rw [payloads_append]
  rfl

/-- Every state reached without wrap-around is tiled, and every payload start
in it is a pointer some call has returned. -/
theorem reach_inv (f : File)
    (hf : VM_START_ADDR + SIZE_INFO_BYTES + ADDR_INFO_BYTES + f.size < SIZE_T)
    (s : scm) (issued : List Nat) (hr : Reach f s issued) : ∃ bs, Inv s issued bs := by
  induction hr with
  | reset =>
    have w := resetRegion_wellFormed f hf
    exact ⟨[], w.tiled, Nat.le_refl _, w.fits, by simp [payloads]⟩
  | malloc s issued n fuel s1 p _ hno hm ih =>
    obtain ⟨bs, hi⟩ := ih
    have hm2 := scm_malloc_mono fuel (bs.length + 1) s n _ hm
    have hu := tiled_used s bs hi.tiled
    rcases first_fit_split n bs with hnone | ⟨pre, b, post, hbs, hfit, hfirst⟩
    · by_cases hcap : (s.used_bytes + n + ADDR_INFO_BYTES) % SIZE_T > s.size
      · rw [malloc_oom _ s n (malloc_scan_tiled_none s bs n _ hi.tiled hnone (by omega)) hcap]
          at hm2
        obtain ⟨rfl, rfl⟩ := Prod.mk.inj (Option.some.inj hm2)
        exact ⟨bs, hi.tiled, hi.header, hi.room, fun q hq => List.mem_cons_of_mem _ (hi.known q hq)⟩
      · obtain ⟨rfl, rfl⟩ := malloc_append_some s bs n _ hi.tiled hnone hcap (by omega) _ _ hm2
        have hle : s.used_bytes + n + ADDR_INFO_BYTES ≤ s.size := by
          rw [Nat.mod_eq_of_lt hno] at hcap; omega
        refine ⟨bs ++ [⟨1, n⟩], appended_tiled s bs n hi.tiled hi.header
          (by have := hi.room; omega), hi.header, hi.room, ?_⟩
        intro q hq
        rw [show (appended s n).base_addr = s.base_addr from rfl, payloads_snoc,
          List.mem_append] at hq
        rcases hq with hq | hq
        · exact List.mem_cons_of_mem _ (hi.known q hq)
        · rw [List.mem_singleton] at hq
          rw [hq, ← hu]
          exact List.mem_cons_self _ _
    · subst hbs
      rw [malloc_reuse s pre post b n _ hi.tiled hfit.1 hfit.2 hfirst
        (by simp only [List.length_append, List.length_cons]; omega)] at hm2
      obtain ⟨rfl, rfl⟩ := Prod.mk.inj (Option.some.inj hm2)
      refine ⟨pre ++ { b with flag := 1 } :: post,
        ⟨tiles_set_flag s.mem 1 (by unfold SIZE_T; norm_num) b post pre _ _ hi.tiled.layout,
          hi.tiled.fits⟩, hi.header, hi.room, ?_⟩
      intro q hq
      rw [payloads_set_flag] at hq
      exact List.mem_cons_of_mem _ (hi.known q hq)
  | strdup s issued str s1 p _ hno hsd ih =>
    obtain ⟨bs, hi⟩ := ih
    have hu := tiled_used s bs hi.tiled
    obtain ⟨rfl, rfl⟩ := strdup_some s str hno _ _ hsd
    refine ⟨bs ++ [⟨1, str.length + 1⟩], duplicated_tiled s bs str hi.tiled hi.header hno,
      hi.header, hi.room, ?_⟩
    intro q hq
    rw [show (duplicated s str).base_addr = s.base_addr from rfl, payloads_snoc,
      List.mem_append] at hq
    rcases hq with hq | hq
    · exact List.mem_cons_of_mem _ (hi.known q hq)
    · rw [List.mem_singleton] at hq
      rw [hq, ← hu]
      exact List.mem_cons_self _ _
  | free s issued p fuel s1 _ hfr ih =>
    obtain ⟨bs, hi⟩ := ih
    have hfr2 := scm_free_mono fuel bs.length s p _ hfr
    by_cases hp : p ∈ payloads s.base_addr bs
    · obtain ⟨pre, b, post, hbs, hq⟩ := payloads_split bs _ _ hp
      subst hbs
      rw [hq, free_block s pre post b _ hi.tiled (by omega)] at hfr2
      have e := Option.some.inj hfr2
      subst e
      refine ⟨pre ++ { b with flag := 0 } :: post,
        ⟨released_tiles s pre post b hi.header hi.tiled.layout, hi.tiled.fits⟩,
        hi.header, hi.room, ?_⟩
      intro q hq2
      rw [show (released s (s.base_addr + blocksBytes pre) b.size).base_addr = s.base_addr
        from rfl, payloads_set_flag] at hq2
      exact hi.known q hq2
    · rw [free_not_payload s bs p _ hi.tiled hp (by omega)] at hfr2
      have e := Option.some.inj hfr2
      subst e
      exact ⟨bs, hi⟩

/-- In a state reached without wrap-around, the release of an address no call
has returned is rejected and changes nothing. -/
theorem free_unissued (f : File)
    (hf : VM_START_ADDR + SIZE_INFO_BYTES + ADDR_INFO_BYTES + f.size < SIZE_T)
    (s : scm) (issued : List Nat) (hr : Reach f s issued) (p : Nat) (hp : p ∉ issued) :
    ∃ bs, Tiled s bs ∧ ∀ fuel, bs.length ≤ fuel →
      scm_allocated_addr fuel s p = some false ∧ scm_free fuel s p = some s := by
  obtain ⟨bs, hi⟩ := reach_inv f hf s issued hr
  have hnp : p ∉ payloads s.base_addr bs := fun h => hp (hi.known p h)
  refine ⟨bs, hi.tiled, fun fuel hfuel => ⟨?_, free_not_payload s bs p fuel hi.tiled hnp hfuel⟩⟩
  rw [allocated_addr_tiled s bs p fuel hi.tiled hfuel]
  simp [hnp]

/-- A pointer the loop of `scm_malloc` returns is below the limit, and the
metadata before it holds flag 0 and a size of at least `n`. -/
theorem malloc_scan_some (m : Mem) (limit n : Nat) :
    ∀ (fuel addr a : Nat), malloc_scan m limit n fuel addr = some (some a) →
      a < limit ∧ readWord m (psub a (2 * WORD)) = 0 ∧
        n ≤ readWord m (psub a (2 * WORD) + WORD) := by
  intro fuel
  induction fuel with
  | zero =>
    intro addr a h
    by_cases hl : addr < limit
    · simp [malloc_scan, hl] at h
    · rw [malloc_scan_done _ _ _ _ _ hl] at h; simp at h
  | succ fuel ih =>
    intro addr a h
    by_cases hl : addr < limit
    · rw [malloc_scan_step _ _ _ _ _ hl] at h
      split at h
      · rename_i hc
        have e : addr = a := Option.some.inj (Option.some.inj h)
        subst e
        exact ⟨hl, hc.1, hc.2⟩
      · exact ih _ _ h
    · rw [malloc_scan_done _ _ _ _ _ hl] at h; simp at h

/-- Reuse path of `scm_malloc` in any region: the loop has returned `a`. -/
theorem malloc_reuse_any (fuel : Nat) (s : scm) (n a : Nat)
    (hscan : malloc_scan s.mem (padd (scm_mbase s) s.used_bytes) n fuel (scm_mbase s)
      = some (some a)) :
    scm_malloc fuel s n = some ({ s with mem := writeWord s.mem (psub a (2 * WORD)) 1 }, a) := by
  unfold scm_malloc
  dsimp only
  rw [hscan]

theorem writeBytes_inside (m : Mem) (a : Nat) (bs : List Nat) (i : Nat) (h : i < bs.length) :
    writeBytes m a bs (a + i) = bs.getD i 0 % 256 := by
  unfold writeBytes
  rw [if_pos (by omega)]
  congr 2
  omega

/-- What `scm_strdup` leaves in memory when the new block's addresses do not
wrap around and the header lies below the usable space: the metadata, the
copied bytes with their terminator, the header words, and every byte below
the new block outside header words 1 and 2. -/
theorem duplicated_mem (s : scm) (str : List Nat)
    (hh : s.size_info + SIZE_INFO_BYTES ≤ s.base_addr)
    (hroom : s.base_addr + ADDR_INFO_BYTES + s.used_bytes + (str.length + 1) + ADDR_INFO_BYTES
      < SIZE_T) :
    readWord (duplicated s str).mem (s.base_addr + s.used_bytes) = 1 ∧
      readWord (duplicated s str).mem (s.base_addr + s.used_bytes + WORD) = str.length + 1 ∧
      (∀ i, i < str.length + 1 →
        (duplicated s str).mem (s.base_addr + s.used_bytes + ADDR_INFO_BYTES + i)
          = (str ++ [0]).getD i 0 % 256) ∧
      readWord (duplicated s str).mem (s.size_info + WORD) = (duplicated s str).used_bytes ∧
      readWord (duplicated s str).mem (s.size_info + 2 * WORD)
        = (duplicated s str).user_bytes ∧
      (∀ x, x < s.base_addr + s.used_bytes →
        ¬ (s.size_info + WORD ≤ x ∧ x < s.size_info + SIZE_INFO_BYTES) →
        (duplicated s str).mem x = s.mem x) := by
  unfold ADDR_INFO_BYTES WORD at hroom
  unfold SIZE_INFO_BYTES WORD at hh
  have hlen : (str ++ [0]).length = str.length + 1 := by simp
  simp only [duplicated, WORD, ADDR_INFO_BYTES, SIZE_INFO_BYTES]
  refine ⟨?_, ?_, ?_, ?_, ?_, ?_⟩
  · rw [readWord_writeWord_disjoint _ _ _ _ (by omega),
      readWord_writeWord_disjoint _ _ _ _ (by omega),
      readWord_writeBytes_disjoint _ _ _ _ (by omega),
      readWord_writeWord_disjoint _ _ _ _ (by omega), readWord_writeWord_same]
    rfl
  · rw [readWord_writeWord_disjoint _ _ _ _ (by omega),
      readWord_writeWord_disjoint _ _ _ _ (by omega),
      readWord_writeBytes_disjoint _ _ _ _ (by omega), readWord_writeWord_same]
    exact Nat.mod_eq_of_lt (by omega)
  · intro i hi
    rw [writeWord_outside _ _ _ _ (by omega), writeWord_outside _ _ _ _ (by omega),
      writeBytes_inside _ _ _ _ (by omega)]
  · rw [readWord_writeWord_disjoint _ _ _ _ (by omega), readWord_writeWord_same]
    exact Nat.mod_eq_of_lt (by omega)
  · rw [readWord_writeWord_same]
    exact Nat.mod_mod _ _
  · intro x hx1 hx2
    rw [writeWord_outside _ _ _ _ (by omega), writeWord_outside _ _ _ _ (by omega),
      writeBytes_outside _ _ _ _ (by omega),
      writeWord_outside _ _ _ _ (by omega), writeWord_outside _ _ _ _ (by omega)]

/-! ## The instrumented scan -/

theorem scan_visits_step (m : Mem) (limit fuel addr : Nat) (h : addr < limit) :
    scan_visits m limit (fuel + 1) addr =
      (scan_visits m limit fuel
        (padd (padd addr (readWord m (psub addr (2 * WORD) + WORD))) ADDR_INFO_BYTES)).map
        (fun vs => addr :: vs) := by
  rw [scan_visits, if_pos h]

theorem scan_visits_done (m : Mem) (limit fuel addr : Nat) (h : ¬ addr < limit) :
    scan_visits m limit fuel addr = some [] := by
  cases fuel <;> simp [scan_visits, h]

/-- The loop of `scm_allocated_addr` returns true exactly for the addresses
the scan visits. -/
theorem allocated_scan_of_visits (m : Mem) (limit p : Nat) :
    ∀ (fuel addr : Nat) (vs : List Nat), scan_visits m limit fuel addr = some vs →
      allocated_scan m limit p fuel addr = some (decide (p ∈ vs)) := by
  intro fuel
  induction fuel with
  | zero =>
    intro addr vs h
    by_cases hl : addr < limit
    · simp [scan_visits, hl] at h
    · rw [scan_visits_done _ _ _ _ hl] at h
      rw [allocated_scan_done _ _ _ _ _ hl, ← Option.some.inj h]
      simp
  | succ fuel ih =>
    intro addr vs h
    by_cases hl : addr < limit
    · rw [scan_visits_step _ _ _ _ hl] at h
      rw [allocated_scan_step _ _ _ _ _ hl]
      cases hv : scan_visits m limit fuel
          (padd (padd addr (readWord m (psub addr (2 * WORD) + WORD))) ADDR_INFO_BYTES) with
      | none => rw [hv] at h; simp at h
      | some ws =>
        rw [hv] at h
        have e : addr :: ws = vs := Option.some.inj h
        subst e
        by_cases hp : addr = p
        · rw [if_pos hp]; simp [hp]
        · rw [if_neg hp, ih _ _ hv]
          have hp2 : ¬ p = addr := fun h => hp h.symm
          simp [hp2]
    · rw [scan_visits_done _ _ _ _ hl] at h
      rw [allocated_scan_done _ _ _ _ _ hl, ← Option.some.inj h]
      simp

/-- The loop of `scm_malloc` returns the first visited address that passes
its test. -/
theorem malloc_scan_of_visits (m : Mem) (limit n : Nat) :
    ∀ (fuel addr : Nat) (vs : List Nat), scan_visits m limit fuel addr = some vs →
      malloc_scan m limit n fuel addr = some (vs.find? (reusable m n)) := by
  intro fuel
  induction fuel with
  | zero =>
    intro addr vs h
    by_cases hl : addr < limit
    · simp [scan_visits, hl] at h
    · rw [scan_visits_done _ _ _ _ hl] at h
      rw [malloc_scan_done _ _ _ _ _ hl, ← Option.some.inj h]
      rfl
  | succ fuel ih =>
    intro addr vs h
    by_cases hl : addr < limit
    · rw [scan_visits_step _ _ _ _ hl] at h
      rw [malloc_scan_step _ _ _ _ _ hl]
      cases hv : scan_visits m limit fuel
          (padd (padd addr (readWord m (psub addr (2 * WORD) + WORD))) ADDR_INFO_BYTES) with
      | none => rw [hv] at h; simp at h
      | some ws =>
        rw [hv] at h
        have e : addr :: ws = vs := Option.some.inj h
        subst e
        by_cases hc : readWord m (psub addr (2 * WORD)) = 0 ∧
            readWord m (psub addr (2 * WORD) + WORD) ≥ n
        · rw [if_pos hc]
          have : reusable m n addr = true := by unfold reusable; exact decide_eq_true hc
          rw [List.find?_cons_of_pos _ this]
        · rw [if_neg hc, ih _ _ hv]
          have : ¬ reusable m n addr = true := by
            unfold reusable; rw [decide_eq_true_iff]; exact hc
          rw [List.find?_cons_of_neg _ this]
    · rw [scan_visits_done _ _ _ _ hl] at h
      rw [malloc_scan_done _ _ _ _ _ hl, ← Option.some.inj h]
      rfl

theorem scan_visits_tiles (m : Mem) :
    ∀ (bs : List Block) (o e : Nat), tiles m o bs e → e + 16 < SIZE_T →
      scan_visits m (e + 16) bs.length (o + 16) = some (payloads o bs) := by
  intro bs
  induction bs with
  | nil =>
    intro o e ht _
    have : o = e := ht
    exact scan_visits_done m _ _ _ (by omega)
  | cons c bs ih =>
    intro o e ht he
    obtain ⟨_, h2, h3⟩ := ht
    have hle := tiles_le m _ _ _ h3
    unfold ADDR_INFO_BYTES WORD at hle h3
    rw [List.length_cons, scan_visits_step m _ _ _ (by omega), psub_eq _ (by omega) (by omega)]
    have e1 : o + 16 - 16 + WORD = o + WORD := by omega
    rw [e1, h2]
    unfold ADDR_INFO_BYTES WORD
    rw [padd_eq (o + 16) c.size (by omega), padd_eq _ _ (by omega)]
    have e2 : o + 16 + c.size + 2 * 8 = (o + 2 * 8 + c.size) + 16 := by omega
    rw [e2, ih _ e h3 he]
    rfl

/-- On a tiled area the scan runs its body once per block, in layout order,
at the payload start of each block. -/
theorem scan_visits_tiled (s : scm) (bs : List Block) (ht : Tiled s bs) :
    scan_visits s.mem (padd (scm_mbase s) s.used_bytes) bs.length (scm_mbase s)
      = some (payloads s.base_addr bs) := by
  have hu := tiled_used s _ ht
  have hf := ht.fits
  unfold ADDR_INFO_BYTES WORD at hf
  by_cases h0 : s.used_bytes = 0
  · have hb : scm_mbase s = s.base_addr := by unfold scm_mbase; rw [if_neg (by omega)]
    have hnil : bs = [] := blocksBytes_eq_zero bs (by omega)
    rw [hb, h0, padd_eq _ _ (by omega), scan_visits_done _ _ _ _ (by omega), hnil]
    rfl
  · have hbase : scm_mbase s = s.base_addr + 16 := by
      unfold scm_mbase WORD
      rw [if_pos h0, padd_eq _ _ (by omega)]
    have hlim : padd (s.base_addr + 16) s.used_bytes = s.base_addr + s.used_bytes + 16 := by
      rw [padd_eq _ _ (by omega)]; omega
    rw [hbase, hlim]
    exact scan_visits_tiles s.mem bs s.base_addr _ ht.layout (by omega)

theorem payloads_sorted (bs : List Block) :
    ∀ o, List.Pairwise (fun a b => a < b) (payloads o bs) := by
  induction bs with
  | nil => intro o; exact List.Pairwise.nil
  | cons c bs ih =>
    intro o
    refine List.Pairwise.cons ?_ (ih _)
    intro q hq
    have := payloads_ge bs _ q hq
    unfold ADDR_INFO_BYTES WORD at this ⊢
    omega

/-- The memory determines the blocks that tile an area. -/
theorem tiles_unique (m : Mem) :
    ∀ (bs bs1 : List Block) (o e : Nat), tiles m o bs e → tiles m o bs1 e → bs = bs1 := by
  intro bs
  induction bs with
  | nil =>
    intro bs1 o e h h1
    cases bs1 with
    | nil => rfl
    | cons c cs =>
      have : o = e := h
      have := tiles_le m _ _ _ h1.2.2
      unfold ADDR_INFO_BYTES WORD at this
      omega
  | cons b bs ih =>
    intro bs1 o e h h1
    cases bs1 with
    | nil =>
      have : o = e := h1
      have := tiles_le m _ _ _ h.2.2
      unfold ADDR_INFO_BYTES WORD at this
      omega
    | cons c cs =>
      obtain ⟨f1, s1, t1⟩ := h
      obtain ⟨f2, s2, t2⟩ := h1
      have hb : b = c := by
        cases b; cases c
        simp only at f1 s1 f2 s2
        rw [Block.mk.injEq]
        exact ⟨f1.symm.trans f2, s1.symm.trans s2⟩
      subst hb
      rw [ih cs _ e t1 t2]

/-- The region `regionAB` is reached from the freshly reset 64-byte file by
two calls of `scm_malloc`. -/
theorem reach_regionAB :
    Reach file64 regionAB
      [VM_START_ADDR + SIZE_INFO_BYTES + 48, VM_START_ADDR + SIZE_INFO_BYTES + 16] :=
  Reach.malloc (appended (resetRegion file64) 16) _ 16 1 regionAB _
    (Reach.malloc (resetRegion file64) [] 16 0 _ _ Reach.reset (by decide)
      (malloc_append (resetRegion file64) [] 16 0 ⟨by decide, by decide⟩ (by simp) (by decide)
        (by decide) (by decide)))
    (by decide)
    (malloc_append (appended (resetRegion file64) 16) [⟨1, 16⟩] 16 1 ⟨by decide, by decide⟩
      (by simp) (by decide) (by decide) (by decide))

/-! ## The header mirror -/

/-- Byte `x - a` of the word loaded from `a` is the byte stored at `x`. -/
theorem byte_of_readWord (m : Mem) (a x : Nat) (h1 : a ≤ x) (h2 : x < a + 8) :
    readWord m a / 256 ^ (x - a) % 256 = m x % 256 := by
  obtain ⟨i, rfl⟩ : ∃ i, x = a + i := ⟨x - a, by omega⟩
  have hi : i < 8 := by omega
  have e : a + i - a = i := by omega
  rw [e]
  unfold readWord
  interval_cases i <;> norm_num <;> omega

/-- Storing back the word just loaded leaves every byte as it is. -/
theorem writeWord_readWord (m : Mem) (a v x : Nat) (hv : readWord m a = v) :
    writeWord m a v x % 256 = m x % 256 := by
  unfold writeWord
  split
  · rename_i h
    rw [← hv, Nat.mod_mod, byte_of_readWord m a x h.1 h.2]
  · rfl

theorem readWord_congr_mod (m m1 : Mem) (a : Nat)
    (h : ∀ x, a ≤ x → x < a + 8 → m1 x % 256 = m x % 256) :
    readWord m1 a = readWord m a := by
  unfold readWord
  rw [h a (by omega) (by omega), h (a + 1) (by omega) (by omega),
    h (a + 2) (by omega) (by omega), h (a + 3) (by omega) (by omega),
    h (a + 4) (by omega) (by omega), h (a + 5) (by omega) (by omega),
    h (a + 6) (by omega) (by omega), h (a + 7) (by omega) (by omega)]

/-- When the header mirrors the record, the header stores of `scm_close`
leave every byte as it is. -/
theorem close_bytes (s : scm) (hm : Mirror s) (x : Nat) :
    scm_close s x % 256 = s.mem x % 256 := by
  have h1 : ∀ y, writeWord s.mem s.size_info SIZE_INFO_ID y % 256 = s.mem y % 256 :=
    fun y => writeWord_readWord s.mem _ _ y hm.sentinel
  have r2 : readWord (writeWord s.mem s.size_info SIZE_INFO_ID) (s.size_info + WORD)
      = s.used_bytes := by
    rw [readWord_congr_mod s.mem _ _ (fun y _ _ => h1 y)]; exact hm.used
  have h2 : ∀ y, writeWord (writeWord s.mem s.size_info SIZE_INFO_ID) (s.size_info + WORD)
      s.used_bytes y % 256 = s.mem y % 256 :=
    fun y => (writeWord_readWord _ _ _ y r2).trans (h1 y)
  have r3 : readWord (writeWord (writeWord s.mem s.size_info SIZE_INFO_ID) (s.size_info + WORD)
      s.used_bytes) (s.size_info + 2 * WORD) = s.user_bytes := by
    rw [readWord_congr_mod s.mem _ _ (fun y _ _ => h2 y)]; exact hm.user
  unfold scm_close
  exact (writeWord_readWord _ _ _ x r3).trans (h2 x)

/-- Function `scm_open` leaves the header mirroring the record. -/
theorem mirror_open (f : File) (truncate : Int) (s : scm) (h : scm_open f truncate = some s) :
    Mirror s := by
  unfold scm_open at h
  split at h
  · simp at h
  split at h
  · simp at h
  split at h
  · simp at h
  dsimp only at h
  have e := Option.some.inj h
  subst e
  by_cases hc : readWord (mapFile f) VM_START_ADDR ≠ SIZE_INFO_ID ∨ truncate ≠ 0
  · simp only [if_pos hc]
    refine ⟨?_, rfl, rfl⟩
    show readWord (writeWord (writeWord (writeWord (mapFile f) VM_START_ADDR SIZE_INFO_ID)
      (VM_START_ADDR + WORD) 0) (VM_START_ADDR + 2 * WORD) 0) VM_START_ADDR = SIZE_INFO_ID
    unfold WORD
    rw [readWord_writeWord_disjoint _ _ _ _ (by omega),
      readWord_writeWord_disjoint _ _ _ _ (by omega), readWord_writeWord_same]
    decide
  · simp only [if_neg hc]
    refine ⟨?_, rfl, rfl⟩
    show readWord (mapFile f) VM_START_ADDR = SIZE_INFO_ID
    by_contra hne
    exact hc (Or.inl hne)

/-- The append path of `scm_malloc` keeps the header mirroring the record. -/
theorem mirror_appended (s : scm) (n : Nat) (hm : Mirror s)
    (hh : s.size_info + SIZE_INFO_BYTES ≤ s.base_addr) : Mirror (appended s n) := by
  unfold SIZE_INFO_BYTES WORD at hh
  have h := hm.sentinel
  refine ⟨?_, ?_, ?_⟩
  · simp only [appended, WORD]
    rw [readWord_writeWord_disjoint _ _ _ _ (by omega),
      readWord_writeWord_disjoint _ _ _ _ (by omega),
      readWord_writeWord_disjoint _ _ _ _ (by omega),
      readWord_writeWord_disjoint _ _ _ _ (by omega)]
    exact h
  · simp only [appended, WORD]
    rw [readWord_writeWord_disjoint _ _ _ _ (by omega), readWord_writeWord_same]
    exact Nat.mod_mod _ _
  · simp only [appended, WORD]
    rw [readWord_writeWord_same]
    exact Nat.mod_mod _ _

/-- A store into the usable space keeps the header mirroring the record. -/
theorem mirror_store (s : scm) (a v : Nat) (hm : Mirror s)
    (ha : s.size_info + SIZE_INFO_BYTES ≤ a) :
    Mirror { s with mem := writeWord s.mem a v } := by
  unfold SIZE_INFO_BYTES WORD at ha
  refine ⟨?_, ?_, ?_⟩
  · show readWord (writeWord s.mem a v) s.size_info = _
    rw [readWord_writeWord_disjoint _ _ _ _ (by omega)]; exact hm.sentinel
  · show readWord (writeWord s.mem a v) (s.size_info + WORD) = _
    rw [readWord_writeWord_disjoint _ _ _ _ (by unfold WORD; omega)]; exact hm.used
  · show readWord (writeWord s.mem a v) (s.size_info + 2 * WORD) = _
    rw [readWord_writeWord_disjoint _ _ _ _ (by unfold WORD; omega)]; exact hm.user

/-- Function `scm_malloc` on a tiled area keeps the header mirroring the
record, whatever the request. -/
theorem mirror_malloc (s : scm) (bs : List Block) (ht : Tiled s bs)
    (hh : s.size_info + SIZE_INFO_BYTES ≤ s.base_addr) (hm : Mirror s)
    (fuel n : Nat) (s1 : scm) (p : Nat) (h : scm_malloc fuel s n = some (s1, p)) :
    Mirror s1 := by
  have h2 := scm_malloc_mono fuel (bs.length + 1) s n _ h
  rcases first_fit_split n bs with hnone | ⟨pre, b, post, hbs, hfit, hfirst⟩
  · by_cases hcap : (s.used_bytes + n + ADDR_INFO_BYTES) % SIZE_T > s.size
    · rw [malloc_oom _ s n (malloc_scan_tiled_none s bs n _ ht hnone (by omega)) hcap] at h2
      obtain ⟨rfl, rfl⟩ := Prod.mk.inj (Option.some.inj h2)
      exact hm
    · obtain ⟨rfl, rfl⟩ := malloc_append_some s bs n _ ht hnone hcap (by omega) _ _ h2
      exact mirror_appended s n hm hh
  · subst hbs
    rw [malloc_reuse s pre post b n _ ht hfit.1 hfit.2 hfirst
      (by simp only [List.length_append, List.length_cons]; omega)] at h2
    obtain ⟨rfl, rfl⟩ := Prod.mk.inj (Option.some.inj h2)
    exact mirror_store s _ 1 hm (by omega)

/-- Function `scm_strdup` keeps the header mirroring the record. -/
theorem mirror_strdup (s : scm) (str : List Nat)
    (hh : s.size_info + SIZE_INFO_BYTES ≤ s.base_addr) (hm : Mirror s)
    (hroom : s.base_addr + ADDR_INFO_BYTES + s.used_bytes + (str.length + 1) + ADDR_INFO_BYTES
      < SIZE_T)
    (s1 : scm) (p : Nat) (h : scm_strdup s str = some (s1, p)) :
    Mirror s1 := by
  obtain ⟨rfl, rfl⟩ := strdup_some s str hroom _ _ h
  obtain ⟨_, _, _, m4, m5, m6⟩ := duplicated_mem s str hh hroom
  refine ⟨?_, m4, m5⟩
  show readWord (duplicated s str).mem s.size_info = _
  rw [readWord_congr s.mem _ _ (fun x h1 h2 => m6 x
    (by unfold SIZE_INFO_BYTES WORD at hh; omega) (by unfold WORD; omega))]
  exact hm.sentinel

/-- Function `scm_free` on a tiled area keeps the header mirroring the
record. -/
theorem mirror_free (s : scm) (bs : List Block) (ht : Tiled s bs)
    (hh : s.size_info + SIZE_INFO_BYTES ≤ s.base_addr) (hm : Mirror s)
    (fuel p : Nat) (s1 : scm) (h : scm_free fuel s p = some s1) : Mirror s1 := by
  have h2 := scm_free_mono fuel bs.length s p _ h
  by_cases hp : p ∈ payloads s.base_addr bs
  · obtain ⟨pre, b, post, hbs, hq⟩ := payloads_split bs _ _ hp
    subst hbs
    rw [hq, free_block s pre post b _ ht (by omega)] at h2
    have e := Option.some.inj h2
    subst e
    unfold SIZE_INFO_BYTES WORD at hh
    refine ⟨?_, ?_, ?_⟩
    · simp only [released, WORD]
      rw [readWord_writeWord_disjoint _ _ _ _ (by omega),
        readWord_writeWord_disjoint _ _ _ _ (by omega)]
      exact hm.sentinel
    · simp only [released, WORD]
      rw [readWord_writeWord_disjoint _ _ _ _ (by omega),
        readWord_writeWord_disjoint _ _ _ _ (by omega)]
      exact hm.used
    · simp only [released, WORD]
      rw [readWord_writeWord_same]
      exact Nat.mod_mod _ _
  · rw [free_not_payload s bs p _ ht hp (by omega)] at h2
    have e := Option.some.inj h2
    subst e
    exact hm

/-- The freshly reset region has its header mirroring the record. -/
theorem mirror_reset (f : File) : Mirror (resetRegion f) := by
  refine ⟨?_, ?_, ?_⟩
  · show readWord (resetMem f) VM_START_ADDR = SIZE_INFO_ID
    unfold resetMem WORD
    rw [readWord_writeWord_disjoint _ _ _ _ (by omega),
      readWord_writeWord_disjoint _ _ _ _ (by omega), readWord_writeWord_same]
    decide
  · show readWord (resetMem f) (VM_START_ADDR + WORD) = 0
    unfold resetMem WORD
    rw [readWord_writeWord_disjoint _ _ _ _ (by omega), readWord_writeWord_same]
    rfl
  · show readWord (resetMem f) (VM_START_ADDR + 2 * WORD) = 0
    unfold resetMem
    rw [readWord_writeWord_same]
    rfl

/-- Every state reached without wrap-around has its header mirroring the
record. -/
theorem mirror_reach (f : File)
    (hf : VM_START_ADDR + SIZE_INFO_BYTES + ADDR_INFO_BYTES + f.size < SIZE_T)
    (s : scm) (issued : List Nat) (hr : Reach f s issued) : Mirror s := by
  induction hr with
  | reset => exact mirror_reset f
  | malloc s issued n fuel s1 p hr0 _ hm ih =>
    obtain ⟨bs, hi⟩ := reach_inv f hf s issued hr0
    exact mirror_malloc s bs hi.tiled hi.header ih fuel n s1 p hm
  | strdup s issued str s1 p hr0 hno hsd ih =>
    obtain ⟨bs, hi⟩ := reach_inv f hf s issued hr0
    exact mirror_strdup s str hi.header ih hno s1 p hsd
  | free s issued p fuel s1 hr0 hfr ih =>
    obtain ⟨bs, hi⟩ := reach_inv f hf s issued hr0
    exact mirror_free s bs hi.tiled hi.header ih fuel p s1 hfr

/-! ## Blocks of a tiling do not overlap -/

/-- Two positions in one block list: the earlier block ends before the later
one starts, and equal positions hold the same block. -/
theorem split_order (pre pre1 post post1 : List Block) (b c : Block)
    (h : pre ++ b :: post = pre1 ++ c :: post1) :
    (pre1.length < pre.length →
        blocksBytes pre1 + (ADDR_INFO_BYTES + c.size) ≤ blocksBytes pre) ∧
      (pre.length < pre1.length →
        blocksBytes pre + (ADDR_INFO_BYTES + b.size) ≤ blocksBytes pre1) ∧
      (pre.length = pre1.length → b = c) := by
  rcases List.append_eq_append_iff.mp h with ⟨a, h1, h2⟩ | ⟨a, h1, h2⟩
  · cases a with
    | nil =>
      simp only [List.append_nil, List.nil_append] at h1 h2
      subst h1
      have hb : b = c := by injection h2
      exact ⟨fun hl => absurd hl (Nat.lt_irrefl _), fun hl => absurd hl (Nat.lt_irrefl _),
        fun _ => hb⟩
    | cons d a =>
      have hd : b = d := by
        rw [List.cons_append] at h2
        injection h2
      subst hd
      subst h1
      refine ⟨?_, ?_, ?_⟩
      · intro hl; simp at hl
      · intro _
        rw [blocksBytes_append]
        simp only [blocksBytes]
        omega
      · intro hl; simp at hl
  · cases a with
    | nil =>
      simp only [List.append_nil, List.nil_append] at h1 h2
      subst h1
      have hb : c = b := by injection h2
      exact ⟨fun hl => absurd hl (Nat.lt_irrefl _), fun hl => absurd hl (Nat.lt_irrefl _),
        fun _ => hb.symm⟩
    | cons d a =>
      have hd : c = d := by
        rw [List.cons_append] at h2
        injection h2
      subst hd
      subst h1
      refine ⟨?_, ?_, ?_⟩
      · intro _
        rw [blocksBytes_append]
        simp only [blocksBytes]
        omega
      · intro hl; simp at hl
      · intro hl; simp at hl

/-- The payload of a block of a block list is disjoint from every other
block of the list. -/
theorem payload_disjoint (o : Nat) (pre post : List Block) (b : Block) :
    ∀ pre1 c post1, pre ++ b :: post = pre1 ++ c :: post1 → pre1.length ≠ pre.length →
      o + blocksBytes pre1 + ADDR_INFO_BYTES + c.size
          ≤ o + blocksBytes pre + ADDR_INFO_BYTES ∨
        o + blocksBytes pre + ADDR_INFO_BYTES + b.size ≤ o + blocksBytes pre1 := by
  intro pre1 c post1 h hne
  obtain ⟨h1, h2, _⟩ := split_order pre pre1 post post1 b c h
  rcases Nat.lt_or_gt_of_ne hne with hl | hl
  · left; have := h1 hl; omega
  · right; have := h2 hl; omega

/-- A pointer returned by a successful `scm_malloc` on a tiled area is
freshly issued.  The request does not make the size arithmetic wrap. -/
theorem malloc_fresh (s : scm) (bs : List Block) (ht : Tiled s bs)
    (hh : s.size_info + SIZE_INFO_BYTES ≤ s.base_addr)
    (hroom : s.base_addr + ADDR_INFO_BYTES + s.size < SIZE_T)
    (n fuel : Nat) (s1 : scm) (p : Nat) (hno : s.used_bytes + n + ADDR_INFO_BYTES < SIZE_T)
    (h : scm_malloc fuel s n = some (s1, p)) (hp : p ≠ NULL) : IssuedFresh s s1 p := by
  have h2 := scm_malloc_mono fuel (bs.length + 1) s n _ h
  have hu := tiled_used s bs ht
  rcases first_fit_split n bs with hnone | ⟨pre, b, post, hbs, hfit, hfirst⟩
  · by_cases hcap : (s.used_bytes + n + ADDR_INFO_BYTES) % SIZE_T > s.size
    · rw [malloc_oom _ s n (malloc_scan_tiled_none s bs n _ ht hnone (by omega)) hcap] at h2
      obtain ⟨_, rfl⟩ := Prod.mk.inj (Option.some.inj h2)
      exact absurd rfl hp
    · obtain ⟨rfl, rfl⟩ := malloc_append_some s bs n _ ht hnone hcap (by omega) _ _ h2
      have hle : s.used_bytes + n + ADDR_INFO_BYTES ≤ s.size := by
        rw [Nat.mod_eq_of_lt hno] at hcap; omega
      refine ⟨bs, bs, ⟨1, n⟩, [], ht, appended_tiled s bs n ht hh (by omega), ?_, rfl, ?_, ?_⟩
      · show s.base_addr + s.used_bytes + ADDR_INFO_BYTES = s.base_addr + _ + _
        rw [hu]
      · intro pre0 c post0 hbs _ heq
        have e : blocksBytes bs
            = blocksBytes pre0 + (ADDR_INFO_BYTES + c.size + blocksBytes post0) := by
          rw [hbs, blocksBytes_append]; rfl
        unfold ADDR_INFO_BYTES WORD at e heq
        omega
      · intro pre1 c post1 he hne
        have := payload_disjoint s.base_addr bs [] ⟨1, n⟩ pre1 c post1 he hne
        rw [hu]
        exact this
  · subst hbs
    rw [malloc_reuse s pre post b n _ ht hfit.1 hfit.2 hfirst
      (by simp only [List.length_append, List.length_cons]; omega)] at h2
    obtain ⟨rfl, rfl⟩ := Prod.mk.inj (Option.some.inj h2)
    refine ⟨pre ++ b :: post, pre, ⟨1, b.size⟩, post, ht,
      ⟨tiles_set_flag s.mem 1 (by unfold SIZE_T; norm_num) b post pre _ _ ht.layout, ht.fits⟩,
      rfl, rfl, ?_, ?_⟩
    · intro pre0 c post0 he hc heq
      obtain ⟨h1, h2, h3⟩ := split_order pre pre0 post post0 b c he
      rcases Nat.lt_trichotomy pre0.length pre.length with hl | hl | hl
      · have := h1 hl; unfold ADDR_INFO_BYTES WORD at this heq; omega
      · have hb := h3 hl.symm
        rw [← hb, hfit.1] at hc
        exact absurd hc (by decide)
      · have := h2 hl; unfold ADDR_INFO_BYTES WORD at this heq; omega
    · intro pre1 c post1 he hne
      exact payload_disjoint s.base_addr pre post ⟨1, b.size⟩ pre1 c post1 he hne

/-- The pointer returned by `scm_strdup` on a tiled area is freshly issued,
when the new block's addresses do not wrap around. -/
theorem strdup_fresh (s : scm) (bs : List Block) (ht : Tiled s bs)
    (hh : s.size_info + SIZE_INFO_BYTES ≤ s.base_addr) (str : List Nat)
    (hroom : s.base_addr + ADDR_INFO_BYTES + s.used_bytes + (str.length + 1) + ADDR_INFO_BYTES
      < SIZE_T)
    (s1 : scm) (p : Nat) (h : scm_strdup s str = some (s1, p)) :
    IssuedFresh s s1 p := by
  have hu := tiled_used s bs ht
  obtain ⟨rfl, rfl⟩ := strdup_some s str hroom _ _ h
  refine ⟨bs, bs, ⟨1, str.length + 1⟩, [], ht, duplicated_tiled s bs str ht hh hroom, ?_, rfl,
    ?_, ?_⟩
  · show s.base_addr + s.used_bytes + ADDR_INFO_BYTES = s.base_addr + _ + _
    rw [hu]
  · intro pre0 c post0 hbs _ heq
    have e : blocksBytes bs
        = blocksBytes pre0 + (ADDR_INFO_BYTES + c.size + blocksBytes post0) := by
      rw [hbs, blocksBytes_append]; rfl
    have heq2 : s.base_addr + s.used_bytes + ADDR_INFO_BYTES
        = s.base_addr + blocksBytes pre0 + ADDR_INFO_BYTES := heq
    unfold ADDR_INFO_BYTES WORD at e heq2
    omega
  · intro pre1 c post1 he hne
    have := payload_disjoint s.base_addr bs [] ⟨1, str.length + 1⟩ pre1 c post1 he hne
    show s.base_addr + blocksBytes pre1 + ADDR_INFO_BYTES + c.size
        ≤ s.base_addr + s.used_bytes + ADDR_INFO_BYTES ∨
      s.base_addr + s.used_bytes + ADDR_INFO_BYTES + (str.length + 1)
        ≤ s.base_addr + blocksBytes pre1
    rw [hu]
    exact this

/-! ## Closing and reopening -/

/-- The header stores of `scm_close` leave every byte outside the header as
it is. -/
theorem close_outside (s : scm) (x : Nat)
    (h : x < s.size_info ∨ s.size_info + SIZE_INFO_BYTES ≤ x) : scm_close s x = s.mem x := by
  unfold SIZE_INFO_BYTES WORD at h
  unfold scm_close WORD
  rw [writeWord_outside _ _ _ _ (by omega), writeWord_outside _ _ _ _ (by omega),
    writeWord_outside _ _ _ _ (by omega)]

/-- Inside the file, the mapping of the closed file holds the bytes
`scm_close` left. -/
theorem mapFile_closeFile (s : scm) (hm : s.mapped_addr = VM_START_ADDR) (x : Nat)
    (h1 : VM_START_ADDR ≤ x) (h2 : x < VM_START_ADDR + s.size) :
    mapFile (closeFile s) x = scm_close s x := by
  have h3 : x - VM_START_ADDR < s.size := by omega
  show (if VM_START_ADDR ≤ x then
      (if x - VM_START_ADDR < s.size then scm_close s (s.mapped_addr + (x - VM_START_ADDR))
        else 0)
    else 0) = scm_close s x
  rw [if_pos h1, if_pos h3, hm, Nat.add_sub_of_le h1]

/-- Round trip: for a region laid out as `scm_open` leaves it, whose counters
are `size_t` values and whose file holds at least the header, closing and
reopening without `truncate` gives the same record over the mapping of the
closed file. -/
theorem reopen_eq (s : scm) (hm : s.mapped_addr = VM_START_ADDR)
    (hi : s.size_info = VM_START_ADDR) (hb : s.base_addr = VM_START_ADDR + SIZE_INFO_BYTES)
    (hsz : s.size < SIZE_T) (hused : s.used_bytes < SIZE_T) (huser : s.user_bytes < SIZE_T)
    (hhdr : SIZE_INFO_BYTES ≤ s.size) :
    scm_open (closeFile s) 0 = some { s with mem := mapFile (closeFile s) } := by
  unfold SIZE_INFO_BYTES WORD at hhdr
  have r0 : readWord (mapFile (closeFile s)) VM_START_ADDR = SIZE_INFO_ID := by
    rw [readWord_congr (scm_close s) _ _
      (fun x h1 h2 => mapFile_closeFile s hm x h1 (by omega))]
    unfold scm_close WORD
    rw [hi, readWord_writeWord_disjoint _ _ _ _ (by omega),
      readWord_writeWord_disjoint _ _ _ _ (by omega), readWord_writeWord_same]
    decide
  have r1 : readWord (mapFile (closeFile s)) (VM_START_ADDR + WORD) = s.used_bytes := by
    unfold WORD
    rw [readWord_congr (scm_close s) _ _
      (fun x h1 h2 => mapFile_closeFile s hm x (by omega) (by omega))]
    unfold scm_close WORD
    rw [hi, readWord_writeWord_disjoint _ _ _ _ (by omega), readWord_writeWord_same]
    exact Nat.mod_eq_of_lt hused
  have r2 : readWord (mapFile (closeFile s)) (VM_START_ADDR + 2 * WORD) = s.user_bytes := by
    unfold WORD
    rw [readWord_congr (scm_close s) _ _
      (fun x h1 h2 => mapFile_closeFile s hm x (by omega) (by omega))]
    unfold scm_close WORD
    rw [hi, readWord_writeWord_same]
    exact Nat.mod_eq_of_lt huser
  have hp : padd VM_START_ADDR SIZE_INFO_BYTES = VM_START_ADDR + SIZE_INFO_BYTES := by decide
  have hc : ¬ (readWord (mapFile (closeFile s)) VM_START_ADDR ≠ SIZE_INFO_ID ∨ (0 : Int) ≠ 0) := by
    rw [r0]; simp
  have hs : (closeFile s).size % SIZE_T = s.size := Nat.mod_eq_of_lt hsz
  unfold scm_open
  have e1 : (closeFile s).openable = true := rfl
  have e2 : (closeFile s).regular = true := rfl
  have e3 : (closeFile s).mappable = true := rfl
  simp only [e1, e2, e3, Bool.not_true, Bool.false_eq_true, if_false]
  rw [if_neg hc, r1, r2, hp, hs]
  cases s
  simp only at hm hi hb
  subst hm hi hb
  rfl

/-- Round trip of the blocks: when moreover the header and the used area lie
inside the file, the reopened region is tiled by the same blocks and holds
the same bytes in the used area. -/
theorem reopen_tiled (s : scm) (bs : List Block) (hm : s.mapped_addr = VM_START_ADDR)
    (hi : s.size_info = VM_START_ADDR) (hb : s.base_addr = VM_START_ADDR + SIZE_INFO_BYTES)
    (ht : Tiled s bs) (hin : SIZE_INFO_BYTES + s.used_bytes ≤ s.size) :
    Tiled { s with mem := mapFile (closeFile s) } bs ∧
      ∀ x, s.base_addr ≤ x → x < s.base_addr + s.used_bytes →
        mapFile (closeFile s) x = s.mem x := by
  have hx : ∀ x, s.base_addr ≤ x → x < s.base_addr + s.used_bytes →
      mapFile (closeFile s) x = s.mem x := by
    intro x h1 h2
    rw [mapFile_closeFile s hm x (by omega) (by omega)]
    exact close_outside s x (Or.inr (by omega))
  exact ⟨⟨tiles_congr s.mem _ bs _ _ hx ht.layout, ht.fits⟩, hx⟩

/-! ## What the appending calls do when the new block fits -/

/-- Append path of `scm_malloc` in a well-formed region, when the new block
is within the capacity and its metadata in the mapped pages: the call returns
`base_addr + used_bytes + 2*sizeof(size_t)`, the two words at offset
`used_bytes` hold flag 1 and size `n`, the counters grow by
`n + 2*sizeof(size_t)` and by `n` and are stored in header words 1 and 2, and
the region stays well formed with the new live block at the end. -/
theorem malloc_append_region (s : scm) (bs : List Block) (n fuel : Nat)
    (hw : WellFormed s bs) (hsz : n < SIZE_T)
    (hnone : ∀ c ∈ bs, ¬ (c.flag = 0 ∧ n ≤ c.size))
    (hcap : s.used_bytes + n + ADDR_INFO_BYTES ≤ s.size)
    (hmap : mapped s (s.base_addr + s.used_bytes) ADDR_INFO_BYTES)
    (hfuel : bs.length ≤ fuel) :
    ∃ s1, scm_malloc fuel s n = some (s1, s.base_addr + s.used_bytes + ADDR_INFO_BYTES) ∧
      readWord s1.mem (s.base_addr + s.used_bytes) = 1 ∧
      readWord s1.mem (s.base_addr + s.used_bytes + WORD) = n ∧
      s1.used_bytes = s.used_bytes + n + ADDR_INFO_BYTES ∧
      s1.user_bytes = s.user_bytes + n ∧
      readWord s1.mem (s.size_info + WORD) = s1.used_bytes ∧
      readWord s1.mem (s.size_info + 2 * WORD) = s1.user_bytes ∧
      WellFormed s1 (bs ++ [⟨1, n⟩]) := by
  have hh : s.size_info + SIZE_INFO_BYTES ≤ s.base_addr := by rw [hw.header, hw.base]
  have hc : ¬ (s.used_bytes + n + ADDR_INFO_BYTES) % SIZE_T > s.size := by
    rw [Nat.mod_eq_of_lt (by have := hw.fits; omega)]
    omega
  obtain ⟨w1, w2, w3, w4⟩ := appended_words s n hsz hh
  exact ⟨appended s n, malloc_append s bs n fuel hw.tiled hnone hc hfuel hmap, w1, w2,
    (appended_counters s bs n hw hcap).1, (appended_counters s bs n hw hcap).2, w3, w4,
    appended_wellFormed s bs n hw hcap⟩

/-- Function `scm_strdup` when the header lies below the usable space, the
new block's addresses do not wrap around and the new block lies in the mapped
pages: the call returns `base_addr + used_bytes + 2*sizeof(size_t)`; the
words at offset `used_bytes` hold flag 1 and size `strlen + 1`; the payload
holds the bytes of the string and then a zero byte; `used_bytes` grows by
`strlen + 1 + 2*sizeof(size_t)` and `user_bytes` by `strlen + 1` in `size_t`
arithmetic; both are stored in header words 1 and 2; every byte of the used
area is as before, and a region tiled by the blocks `bs` is tiled afterwards
by `bs` followed by the new live block. -/
theorem strdup_region (s : scm) (str : List Nat)
    (hh : s.size_info + SIZE_INFO_BYTES ≤ s.base_addr)
    (hroom : s.base_addr + ADDR_INFO_BYTES + s.used_bytes + (str.length + 1) + ADDR_INFO_BYTES
      < SIZE_T)
    (hmap : mapped s (s.base_addr + s.used_bytes) ADDR_INFO_BYTES ∧
      mapped s (s.base_addr + s.used_bytes + ADDR_INFO_BYTES) (str.length + 1))
    (hbytes : ∀ c ∈ str, c < 256) :
    ∃ s1 p, scm_strdup s str = some (s1, p) ∧
      p = s.base_addr + s.used_bytes + ADDR_INFO_BYTES ∧
      readWord s1.mem (s.base_addr + s.used_bytes) = 1 ∧
      readWord s1.mem (s.base_addr + s.used_bytes + WORD) = str.length + 1 ∧
      (∀ i (h : i < str.length), s1.mem (p + i) = str[i]) ∧
      s1.mem (p + str.length) = 0 ∧
      s1.used_bytes = s.used_bytes + (str.length + 1) + ADDR_INFO_BYTES ∧
      s1.user_bytes = (s.user_bytes + (str.length + 1)) % SIZE_T ∧
      readWord s1.mem (s.size_info + WORD) = s1.used_bytes ∧
      readWord s1.mem (s.size_info + 2 * WORD) = s1.user_bytes ∧
      (∀ x, s.base_addr ≤ x → x < s.base_addr + s.used_bytes → s1.mem x = s.mem x) ∧
      (∀ bs, Tiled s bs → Tiled s1 (bs ++ [⟨1, str.length + 1⟩])) := by
  obtain ⟨m1, m2, m3, m4, m5, m6⟩ := duplicated_mem s str hh hroom
  refine ⟨duplicated s str, _, strdup_eq s str hroom hmap, rfl, m1, m2, ?_, ?_, rfl, rfl, m4,
    m5, ?_, fun bs ht => duplicated_tiled s bs str ht hh hroom⟩
  · intro i hi
    rw [m3 i (by omega), List.getD_eq_getElem?_getD, List.getElem?_append_left hi,
      List.getElem?_eq_getElem hi]
    exact Nat.mod_eq_of_lt (hbytes _ (List.getElem_mem _))
  · rw [m3 str.length (by omega), List.getD_eq_getElem?_getD,
      List.getElem?_append_right (Nat.le_refl _)]
    simp
  · intro x hx1 hx2
    exact m6 x hx2 (by unfold SIZE_INFO_BYTES at hh ⊢; omega)

/-! # The claims -/

/-- C1. First-fit reuse.  In a region whose blocks tile the used area, when a
block is free with stored size at least `n` and no earlier block is, then
`scm_malloc` returns the payload address of that block, the only change is
that its flag word becomes 1, and `used_bytes` is as before.  Second part: on
any freshly reset file of at least 64 bytes, allocate A (16), allocate B (16),
release A, allocate C (8) returns for C the address of A. -/
theorem scm_malloc_first_fit :
    (∀ (s : scm) (pre post : List Block) (b : Block) (n fuel : Nat),
      Tiled s (pre ++ b :: post) → 0 < n → b.flag = 0 → n ≤ b.size →
      (∀ c ∈ pre, ¬ (c.flag = 0 ∧ n ≤ c.size)) → pre.length < fuel →
      ∃ s1 p, scm_malloc fuel s n = some (s1, p) ∧
        (payloads s.base_addr (pre ++ b :: post))[pre.length]? = some p ∧
        s1 = { s with mem := writeWord s.mem (p - ADDR_INFO_BYTES) 1 } ∧
        s1.used_bytes = s.used_bytes ∧
        Tiled s1 (pre ++ { b with flag := 1 } :: post)) ∧
    (∀ (f : File) (truncate : Int) (fuel : Nat),
      f.openable = true → f.regular = true → f.mappable = true → truncate ≠ 0 →
      64 ≤ f.size → VM_START_ADDR + SIZE_INFO_BYTES + ADDR_INFO_BYTES + f.size < SIZE_T →
      2 ≤ fuel →
      ∃ s0 s1 s2 s3 s4 A B C,
        scm_open f truncate = some s0 ∧ scm_malloc fuel s0 16 = some (s1, A) ∧
        scm_malloc fuel s1 16 = some (s2, B) ∧ scm_free fuel s2 A = some s3 ∧
        scm_malloc fuel s3 8 = some (s4, C) ∧ C = A ∧ A ≠ B ∧
        s4.used_bytes = s2.used_bytes) := by
  constructor
  · intro s pre post b n fuel ht _ hfree hsz hfirst hfuel
    refine ⟨_, _, malloc_reuse s pre post b n fuel ht hfree hsz hfirst hfuel,
      payloads_get pre post b s.base_addr, ?_, rfl, ?_⟩
    · have e : s.base_addr + blocksBytes pre + ADDR_INFO_BYTES - ADDR_INFO_BYTES
          = s.base_addr + blocksBytes pre := by omega
      rw [e]
    · exact ⟨tiles_set_flag s.mem 1 (by unfold SIZE_T; norm_num) b post pre _ _ ht.layout,
        ht.fits⟩
  · intro f truncate fuel ho hr hm htr h64 hfit hfuel
    have w0 := resetRegion_wellFormed f hfit
    have hsize : (resetRegion f).size = f.size := Nat.mod_eq_of_lt (by omega)
    have c1 : (resetRegion f).used_bytes + 16 + ADDR_INFO_BYTES ≤ (resetRegion f).size := by
      rw [hsize]; show 0 + 16 + 2 * 8 ≤ f.size; omega
    have w1 := appended_wellFormed _ _ 16 w0 c1
    have u1 := (appended_counters _ _ 16 w0 c1).1
    have c2 : (appended (resetRegion f) 16).used_bytes + 16 + ADDR_INFO_BYTES
        ≤ (appended (resetRegion f) 16).size := by
      rw [u1]; show 0 + 16 + 2 * 8 + 16 + 2 * 8 ≤ (resetRegion f).size; rw [hsize]; omega
    have w2 := appended_wellFormed _ _ 16 w1 c2
    have u2 := (appended_counters _ _ 16 w1 c2).1
    have w3 := (released_wellFormed (appended (appended (resetRegion f) 16) 16) []
      [⟨1, 16⟩] ⟨1, 16⟩ w2 rfl).1
    have m0 : mapped (resetRegion f)
        ((resetRegion f).base_addr + (resetRegion f).used_bytes) ADDR_INFO_BYTES := by
      unfold mapped mapEnd PAGE_SIZE
      rw [hsize]
      show VM_START_ADDR ≤ VM_START_ADDR + SIZE_INFO_BYTES + 0 ∧
        VM_START_ADDR + SIZE_INFO_BYTES + 0 + ADDR_INFO_BYTES
          ≤ VM_START_ADDR + (f.size + 4096 - 1) / 4096 * 4096
      unfold SIZE_INFO_BYTES ADDR_INFO_BYTES WORD
      omega
    have m1 : mapped (appended (resetRegion f) 16)
        ((appended (resetRegion f) 16).base_addr + (appended (resetRegion f) 16).used_bytes)
        ADDR_INFO_BYTES := by
      rw [u1]
      unfold mapped mapEnd PAGE_SIZE
      show VM_START_ADDR ≤ VM_START_ADDR + SIZE_INFO_BYTES + (0 + 16 + ADDR_INFO_BYTES) ∧
        VM_START_ADDR + SIZE_INFO_BYTES + (0 + 16 + ADDR_INFO_BYTES) + ADDR_INFO_BYTES
          ≤ VM_START_ADDR + ((resetRegion f).size + 4096 - 1) / 4096 * 4096
      rw [hsize]
      unfold SIZE_INFO_BYTES ADDR_INFO_BYTES WORD
      omega
    refine ⟨_, _, _, _, _, _, _, _, open_reset f truncate ho hr hm (Or.inr htr),
      malloc_append _ [] 16 fuel w0.tiled (by simp) (by
        rw [Nat.mod_eq_of_lt (by have := w0.fits; omega)]; omega) (by simp) m0,
      malloc_append _ _ 16 fuel w1.tiled (by simp) (by
        rw [Nat.mod_eq_of_lt (by have := w1.fits; omega)]; omega) (by simp; omega) m1,
      ?_, malloc_reuse _ [] [⟨1, 16⟩] ⟨0, 16⟩ 8 fuel w3.tiled rfl (by norm_num) (by simp)
        (by simp; omega), rfl, ?_, rfl⟩
    · exact free_block (appended (appended (resetRegion f) 16) 16) [] [⟨1, 16⟩] ⟨1, 16⟩ fuel
        w2.tiled (by simp; omega)
    · rw [u1]
      show VM_START_ADDR + SIZE_INFO_BYTES + 0 + ADDR_INFO_BYTES
        ≠ VM_START_ADDR + SIZE_INFO_BYTES + (0 + 16 + ADDR_INFO_BYTES) + ADDR_INFO_BYTES
      omega

/-- Witness of C1: in the region left by allocate A (16), allocate B (16),
release A on the 64-byte file, a request of 8 bytes reuses the block of A. -/
theorem scm_malloc_first_fit_witness :
    Tiled regionB [⟨0, 16⟩, ⟨1, 16⟩] ∧
      ∃ s1 p, scm_malloc 1 regionB 8 = some (s1, p) ∧
        (payloads regionB.base_addr [⟨0, 16⟩, ⟨1, 16⟩])[0]? = some p ∧
        s1 = { regionB with mem := writeWord regionB.mem (p - ADDR_INFO_BYTES) 1 } ∧
        s1.used_bytes = regionB.used_bytes ∧
        Tiled s1 [⟨1, 16⟩, ⟨1, 16⟩] :=
  have h : Tiled regionB [⟨0, 16⟩, ⟨1, 16⟩] := ⟨by decide, by decide⟩
  ⟨h, scm_malloc_first_fit.1 regionB [] [⟨1, 16⟩] ⟨0, 16⟩ 8 1 h (by decide) rfl (by decide)
    (by simp) (by decide)⟩

/-- C2, evaluated.  Two well-formed regions in which no free block has
stored size at least `n` and the capacity check of the code passes, and the
append path does not do what is said.  First part: on the freshly reset
64-byte file after one allocation of 8 bytes (`used_bytes = 24`), a request
of `SIZE_MAX - 39` bytes passes the check because
`used_bytes + n + 2*sizeof(size_t)` wraps to 0; the call returns a block and
`used_bytes` goes from 24 to 0.  Second part: on the freshly reset 4096-byte
file after one allocation of 4056 bytes (`used_bytes = 4072`), a request of
8 bytes passes the check (`4072 + 8 + 16 = 4096`) after the loop has ended
at its first block, the metadata of the new block starts at
`mapped_addr + 4096`, the first byte past the mapped page, and the call has
no result, whatever the bound on the loop. -/
theorem scm_malloc_append_wraps_or_faults :
    (∃ s0 s1 p s2 q,
      scm_open file64 1 = some s0 ∧ scm_malloc 0 s0 8 = some (s1, p) ∧
      WellFormed s1 [⟨1, 8⟩] ∧ 0 < SIZE_MAX - 39 ∧
      ¬ (s1.used_bytes + (SIZE_MAX - 39) + ADDR_INFO_BYTES) % SIZE_T > s1.size ∧
      scm_malloc 1 s1 (SIZE_MAX - 39) = some (s2, q) ∧ q ≠ NULL ∧
      s1.used_bytes = 24 ∧ s2.used_bytes = 0 ∧
      s2.used_bytes ≠ s1.used_bytes + (SIZE_MAX - 39) + ADDR_INFO_BYTES) ∧
    (∃ s0 s1 p,
      scm_open (constFile 4096 0) 1 = some s0 ∧ scm_malloc 0 s0 4056 = some (s1, p) ∧
      WellFormed s1 [⟨1, 4056⟩] ∧ s1.used_bytes = 4072 ∧
      malloc_scan s1.mem (padd (scm_mbase s1) s1.used_bytes) 8 1 (scm_mbase s1) = some none ∧
      ¬ (s1.used_bytes + 8 + ADDR_INFO_BYTES) % SIZE_T > s1.size ∧
      s1.base_addr + s1.used_bytes = s1.mapped_addr + 4096 ∧
      ¬ mapped s1 (s1.base_addr + s1.used_bytes) ADDR_INFO_BYTES ∧
      ∀ fuel, scm_malloc fuel s1 8 = none) := by
  refine ⟨⟨_, _, _, _, _, rfl, rfl, ⟨rfl, rfl, by decide, by decide, by decide, by decide⟩,
    by decide, by decide, rfl, by decide, by decide, by decide, by decide⟩,
    ⟨resetRegion (constFile 4096 0), appended (resetRegion (constFile 4096 0)) 4056, _, rfl,
      rfl, ⟨rfl, rfl, by decide, by decide, by decide, by decide⟩, by decide, by decide,
      by decide, by decide, by decide, ?_⟩⟩
  intro fuel
  cases h : scm_malloc fuel (appended (resetRegion (constFile 4096 0)) 4056) 8 with
  | none => rfl
  | some r =>
    have h2 := scm_malloc_mono fuel 1 _ 8 r h
    rw [malloc_append_cases (appended (resetRegion (constFile 4096 0)) 4056) [⟨1, 4056⟩] 8
      (fuel + 1) ⟨by decide, by decide⟩ (by simp) (by decide) (by simp),
      if_neg (by decide)] at h2
    exact absurd h2 (by simp)

/-- C3, evaluated.  On the freshly reset 64-byte file: allocate 16 bytes,
release the returned pointer, release it again.  The first release takes
`user_bytes` from 16 to 0; the second one subtracts the stored size once more,
so `user_bytes` wraps to `2^64 - 16` and the two states differ. -/
theorem scm_free_twice_user_bytes :
    ∃ s0 s1 p s2 s3,
      scm_open file64 1 = some s0 ∧ scm_malloc 1 s0 16 = some (s1, p) ∧
      scm_free 1 s1 p = some s2 ∧ scm_free 1 s2 p = some s3 ∧
      s1.user_bytes = 16 ∧ s2.user_bytes = 0 ∧ s3.user_bytes = SIZE_T - 16 ∧ s3 ≠ s2 :=
  ⟨_, _, _, _, _, rfl, rfl, rfl, rfl, by decide, by decide, by decide,
    fun h => absurd (congrArg scm.user_bytes h) (by decide)⟩

/-- C4, evaluated.  On the freshly reset 64-byte file: allocate 16 bytes,
release them, allocate 8 bytes.  The last call reuses the block, which is live
again with stored size 16, and `scm_utilized` is 0, not 16. -/
theorem scm_utilized_after_reuse :
    ∃ s0 s1 p s2 s3 q,
      scm_open file64 1 = some s0 ∧ scm_malloc 1 s0 16 = some (s1, p) ∧
      scm_free 1 s1 p = some s2 ∧ scm_malloc 1 s2 8 = some (s3, q) ∧ q = p ∧
      tiles s3.mem s3.base_addr [⟨1, 16⟩] (s3.base_addr + s3.used_bytes) ∧
      liveBytes [⟨1, 16⟩] = 16 ∧ scm_utilized s3 = 0 :=
  ⟨_, _, _, _, _, _, rfl, rfl, rfl, rfl, by decide, by decide, by decide, by decide⟩

/-- C5. Failed allocation is atomic.  Whenever the loop of `scm_malloc` ends
without a reusable block and the capacity check fails, the call returns
`NULL` and the region (counters, header words, every byte of every block) is
the region before the call.  Second part: so it is in a tiled region none of
whose free blocks has stored size at least `n`, and `scm_utilized` is as
before. -/
theorem scm_malloc_oom_atomic :
    (∀ (fuel : Nat) (s : scm) (n : Nat),
      malloc_scan s.mem (padd (scm_mbase s) s.used_bytes) n fuel (scm_mbase s) = some none →
      (s.used_bytes + n + ADDR_INFO_BYTES) % SIZE_T > s.size →
      scm_malloc fuel s n = some (s, NULL)) ∧
    (∀ (fuel : Nat) (s : scm) (bs : List Block) (n : Nat),
      Tiled s bs → (∀ c ∈ bs, ¬ (c.flag = 0 ∧ n ≤ c.size)) → bs.length ≤ fuel →
      (s.used_bytes + n + ADDR_INFO_BYTES) % SIZE_T > s.size →
      ∃ s1, scm_malloc fuel s n = some (s1, NULL) ∧ s1 = s ∧
        scm_utilized s1 = scm_utilized s) := by
  refine ⟨malloc_oom, ?_⟩
  intro fuel s bs n ht hnone hfuel hcap
  exact ⟨s, malloc_oom fuel s n (malloc_scan_tiled_none s bs n fuel ht hnone hfuel) hcap,
    rfl, rfl⟩

/-- Witness of C5: a request of 17 bytes in `regionAB`, whose 64 bytes are
taken by two live blocks. -/
theorem scm_malloc_oom_atomic_witness :
    Tiled regionAB [⟨1, 16⟩, ⟨1, 16⟩] ∧
      (regionAB.used_bytes + 17 + ADDR_INFO_BYTES) % SIZE_T > regionAB.size ∧
      ∃ s1, scm_malloc 2 regionAB 17 = some (s1, NULL) ∧ s1 = regionAB ∧
        scm_utilized s1 = scm_utilized regionAB :=
  have h : Tiled regionAB [⟨1, 16⟩, ⟨1, 16⟩] := ⟨by decide, by decide⟩
  ⟨h, by decide, scm_malloc_oom_atomic.2 2 regionAB [⟨1, 16⟩, ⟨1, 16⟩] 17 h (by simp)
    (by decide) (by decide)⟩

/-- C6, evaluated.  On a freshly reset 40-byte file, `scm_malloc` of 24 bytes
succeeds, because the check compares `used_bytes + n + 2*sizeof(size_t) = 40`
with the file size 40 and not with the 16 bytes that follow the header.
Before the call the header plus the used area is within the file; after it
the used area ends at file offset 64, and the whole payload of the new block
(file offsets 40 to 63) is past the end of the file. -/
theorem scm_malloc_past_file_end :
    ∃ s0 s1 p,
      scm_open (constFile 40 0) 1 = some s0 ∧ scm_malloc 0 s0 24 = some (s1, p) ∧
      SIZE_INFO_BYTES + s0.used_bytes ≤ s0.size ∧
      ¬ (s0.used_bytes + 24 + ADDR_INFO_BYTES ≤ s0.size - SIZE_INFO_BYTES) ∧
      p ≠ NULL ∧ s1.size = 40 ∧ SIZE_INFO_BYTES + s1.used_bytes = 64 ∧
      ¬ (SIZE_INFO_BYTES + s1.used_bytes ≤ s1.size) ∧
      p - s1.mapped_addr = 40 ∧ s1.size ≤ p - s1.mapped_addr :=
  ⟨_, _, _, rfl, rfl, by decide, by decide, by decide, by decide, by decide, by decide,
    by decide, by decide⟩

/-- C7, evaluated.  On the freshly reset 64-byte file the invariant
`user_bytes ≤ used_bytes ≤ capacity` holds.  First part: `scm_strdup` of a
60-byte string has no capacity check and leaves `used_bytes = 77` above
`scm_capacity = 64`.  Second part: allocate 16 bytes and release the pointer
twice; `user_bytes` wraps to `2^64 - 16`, above `used_bytes = 32`. -/
theorem region_invariant_not_preserved :
    (∃ s0 s1 p,
      scm_open file64 1 = some s0 ∧ scm_strdup s0 (List.replicate 60 97) = some (s1, p) ∧
      (s0.user_bytes ≤ s0.used_bytes ∧ s0.used_bytes ≤ scm_capacity s0) ∧
      s1.used_bytes = 77 ∧ scm_capacity s1 = 64 ∧ ¬ (s1.used_bytes ≤ scm_capacity s1)) ∧
    (∃ s0 s1 p s2 s3,
      scm_open file64 1 = some s0 ∧ scm_malloc 1 s0 16 = some (s1, p) ∧
      scm_free 1 s1 p = some s2 ∧ scm_free 1 s2 p = some s3 ∧
      (s2.user_bytes ≤ s2.used_bytes ∧ s2.used_bytes ≤ scm_capacity s2) ∧
      s3.user_bytes = SIZE_T - 16 ∧ s3.used_bytes = 32 ∧
      ¬ (s3.user_bytes ≤ s3.used_bytes)) :=
  ⟨⟨_, _, _, rfl, rfl, by decide, by decide, by decide, by decide⟩,
    ⟨_, _, _, _, _, rfl, rfl, rfl, rfl, by decide, by decide, by decide, by decide⟩⟩

/-- C8, evaluated.  On a freshly reset 64-byte file whose bytes are all 1:
`scm_malloc` of `SIZE_MAX - 7` bytes passes the capacity check, because
`used_bytes + n + 2*sizeof(size_t)` wraps to 8, and returns `base_addr + 16`;
`scm_malloc` of 8 bytes then writes its metadata over the size word of the
first block and returns `base_addr + 24`.  The address `base_addr + 33` was
returned by neither call, yet `scm_allocated_addr` accepts it and `scm_free`
changes `user_bytes`, header word 2 and a payload byte. -/
theorem scm_free_unissued_address :
    ∃ s0 s1 p1 s2 p2 s3,
      scm_open (constFile 64 1) 1 = some s0 ∧
      scm_malloc 1 s0 (SIZE_MAX - 7) = some (s1, p1) ∧
      scm_malloc 1 s1 8 = some (s2, p2) ∧
      p1 = s0.base_addr + 16 ∧ p2 = s0.base_addr + 24 ∧
      scm_allocated_addr 2 s2 (s0.base_addr + 33) = some true ∧
      scm_free 2 s2 (s0.base_addr + 33) = some s3 ∧
      s2.user_bytes = 0 ∧ s3.user_bytes = 18374403900871474943 ∧
      readWord s2.mem (s2.size_info + 2 * WORD) = 0 ∧
      readWord s3.mem (s3.size_info + 2 * WORD) = 18374403900871474943 ∧
      s2.mem p2 = 1 ∧ s3.mem p2 = 0 :=
  ⟨_, _, _, _, _, _, rfl, rfl, rfl, by decide, by decide, by decide, rfl, by decide, by decide,
    by decide, by decide, by decide, by decide⟩

/-- C9. In a region whose blocks tile the used area, `scm_allocated_addr`
returns true exactly for the payload start addresses of the blocks, live or
free, and false for every other address.  In particular it is false for every
address when `used_bytes = 0`, and false for an address strictly inside the
metadata or strictly inside the payload of a block. -/
theorem scm_allocated_addr_iff (s : scm) (bs : List Block) (p fuel : Nat)
    (ht : Tiled s bs) (hfuel : bs.length ≤ fuel) :
    (scm_allocated_addr fuel s p = some true ↔ p ∈ payloads s.base_addr bs) ∧
      (scm_allocated_addr fuel s p = some false ↔ p ∉ payloads s.base_addr bs) ∧
      (s.used_bytes = 0 → scm_allocated_addr fuel s p = some false) ∧
      (∀ pre b post, bs = pre ++ b :: post →
        (s.base_addr + blocksBytes pre < p ∧
            p < s.base_addr + blocksBytes pre + ADDR_INFO_BYTES) ∨
          (s.base_addr + blocksBytes pre + ADDR_INFO_BYTES < p ∧
            p < s.base_addr + blocksBytes pre + ADDR_INFO_BYTES + b.size) →
        scm_allocated_addr fuel s p = some false) := by
  have h := allocated_addr_tiled s bs p fuel ht hfuel
  have hf : scm_allocated_addr fuel s p = some false ↔ p ∉ payloads s.base_addr bs := by
    rw [h]; simp
  refine ⟨by rw [h]; simp, hf, ?_, ?_⟩
  · intro h0
    have hu := tiled_used s bs ht
    have hnil : bs = [] := blocksBytes_eq_zero bs (by omega)
    rw [hf, hnil]
    simp [payloads]
  · intro pre b post hbs hin
    rw [hf, hbs]
    intro hq
    obtain ⟨n1, n2⟩ := payloads_not_inside pre post b s.base_addr p hq
    rcases hin with hin | hin
    · exact n1 hin
    · exact n2 hin

/-- Witness of C9: the payload start of the second block of `regionB`. -/
theorem scm_allocated_addr_iff_witness :
    Tiled regionB [⟨0, 16⟩, ⟨1, 16⟩] ∧
      scm_allocated_addr 2 regionB (regionB.base_addr + 48) = some true ∧
      regionB.base_addr + 48 ∈ payloads regionB.base_addr [⟨0, 16⟩, ⟨1, 16⟩] :=
  have h : Tiled regionB [⟨0, 16⟩, ⟨1, 16⟩] := ⟨by decide, by decide⟩
  have hm : regionB.base_addr + 48 ∈ payloads regionB.base_addr [⟨0, 16⟩, ⟨1, 16⟩] := by
    decide
  ⟨h, (scm_allocated_addr_iff regionB [⟨0, 16⟩, ⟨1, 16⟩] (regionB.base_addr + 48) 2 h
    (by decide)).1.2 hm, hm⟩

/-- C10. Release of a live block.  In a well-formed region, `scm_free` of the
payload start of a block whose flag is 1 sets that flag to 0, lowers
`user_bytes` by exactly the stored size of the block, stores the new
`user_bytes` in header word 2, and leaves `used_bytes`, header word 1, the
stored size of the block, the other fields of the record and every byte
outside the flag word and header word 2 as they were; the region stays well
formed, with the same blocks and this one free. -/
theorem scm_free_live_block (s : scm) (pre post : List Block) (b : Block) (fuel : Nat)
    (hw : WellFormed s (pre ++ b :: post)) (hlive : b.flag = 1)
    (hfuel : (pre ++ b :: post).length ≤ fuel) :
    ∃ s1, scm_free fuel s (s.base_addr + blocksBytes pre + ADDR_INFO_BYTES) = some s1 ∧
      readWord s1.mem (s.base_addr + blocksBytes pre) = 0 ∧
      s1.user_bytes + b.size = s.user_bytes ∧
      readWord s1.mem (s.size_info + 2 * WORD) = s1.user_bytes ∧
      s1.used_bytes = s.used_bytes ∧
      readWord s1.mem (s.size_info + WORD) = readWord s.mem (s.size_info + WORD) ∧
      readWord s1.mem (s.base_addr + blocksBytes pre + WORD) = b.size ∧
      (∀ x, ¬ (s.base_addr + blocksBytes pre ≤ x ∧ x < s.base_addr + blocksBytes pre + WORD) →
        ¬ (s.size_info + 2 * WORD ≤ x ∧ x < s.size_info + 3 * WORD) → s1.mem x = s.mem x) ∧
      (s1.size = s.size ∧ s1.size_info = s.size_info ∧ s1.base_addr = s.base_addr ∧
        s1.mapped_addr = s.mapped_addr) ∧
      WellFormed s1 (pre ++ { b with flag := 0 } :: post) := by
  have hh : s.size_info + 24 = s.base_addr := by
    rw [hw.header, hw.base]; rfl
  obtain ⟨hwf, huser⟩ := released_wellFormed s pre post b hw hlive
  have hsz := tiles_size_at s.mem post pre _ _ b hw.layout
  unfold WORD at hsz
  refine ⟨released s (s.base_addr + blocksBytes pre) b.size,
    free_block s pre post b fuel hw.tiled hfuel, ?_, huser, ?_, rfl, ?_, ?_, ?_,
    ⟨rfl, rfl, rfl, rfl⟩, hwf⟩
  · simp only [released, WORD]
    rw [readWord_writeWord_disjoint _ _ _ _ (by omega), readWord_writeWord_same]
    rfl
  · simp only [released, WORD]
    rw [readWord_writeWord_same]
    exact Nat.mod_mod _ _
  · simp only [released, WORD]
    rw [readWord_writeWord_disjoint _ _ _ _ (by omega),
      readWord_writeWord_disjoint _ _ _ _ (by omega)]
  · simp only [released, WORD]
    rw [readWord_writeWord_disjoint _ _ _ _ (by omega),
      readWord_writeWord_disjoint _ _ _ _ (by omega), hsz]
  · intro x h1 h2
    simp only [released, WORD] at h1 h2 ⊢
    rw [writeWord_outside _ _ _ _ (by omega), writeWord_outside _ _ _ _ (by omega)]

/-- Witness of C10: release of the first block of `regionAB`. -/
theorem scm_free_live_block_witness :
    WellFormed regionAB ([] ++ ⟨1, 16⟩ :: [⟨1, 16⟩]) ∧
      ∃ s1, scm_free 2 regionAB (regionAB.base_addr + blocksBytes [] + ADDR_INFO_BYTES)
          = some s1 ∧
        readWord s1.mem (regionAB.base_addr + blocksBytes []) = 0 ∧
        s1.user_bytes + 16 = regionAB.user_bytes ∧
        s1.used_bytes = regionAB.used_bytes :=
  have h : WellFormed regionAB ([] ++ ⟨1, 16⟩ :: [⟨1, 16⟩]) :=
    ⟨by decide, by decide, by decide, by decide, by decide, by decide⟩
  match scm_free_live_block regionAB [] [⟨1, 16⟩] ⟨1, 16⟩ 2 h rfl (by decide) with
  | ⟨s1, h1, h2, h3, _, h5, _⟩ => ⟨h, s1, h1, h2, h3, h5⟩

/-- C12. Reset wipes state.  For every file that `scm_open` can map, whatever
its bytes, opening with `truncate` set, or without it when header word 0 is
not the sentinel, gives a region whose header word 0 is the sentinel and whose
`used_bytes` and `user_bytes` (and header words 1 and 2) are 0: `scm_utilized`
returns 0, `scm_capacity` returns the file size, and both scan loops end
without running their body, so no block is found. -/
theorem scm_open_reset (f : File) (truncate : Int)
    (ho : f.openable = true) (hr : f.regular = true) (hm : f.mappable = true)
    (hsz : f.size < SIZE_T)
    (ht : truncate ≠ 0 ∨ readWord (mapFile f) VM_START_ADDR ≠ SIZE_INFO_ID) :
    ∃ s, scm_open f truncate = some s ∧
      readWord s.mem s.size_info = SIZE_INFO_ID ∧
      readWord s.mem (s.size_info + WORD) = 0 ∧
      readWord s.mem (s.size_info + 2 * WORD) = 0 ∧
      s.used_bytes = 0 ∧ s.user_bytes = 0 ∧ scm_utilized s = 0 ∧
      scm_capacity s = f.size ∧
      (∀ fuel p, scm_allocated_addr fuel s p = some false) ∧
      (∀ fuel n, malloc_scan s.mem (padd (scm_mbase s) s.used_bytes) n fuel (scm_mbase s)
        = some none) := by
  have hb : scm_mbase (resetRegion f) = VM_START_ADDR + SIZE_INFO_BYTES := rfl
  have hl : padd (VM_START_ADDR + SIZE_INFO_BYTES) (resetRegion f).used_bytes
      = VM_START_ADDR + SIZE_INFO_BYTES := by
    show padd (VM_START_ADDR + SIZE_INFO_BYTES) 0 = VM_START_ADDR + SIZE_INFO_BYTES
    decide
  refine ⟨resetRegion f, open_reset f truncate ho hr hm (Or.symm ht), ?_, ?_, ?_, rfl, rfl, rfl,
    Nat.mod_eq_of_lt hsz, ?_, ?_⟩
  · show readWord (resetMem f) VM_START_ADDR = SIZE_INFO_ID
    unfold resetMem WORD
    rw [readWord_writeWord_disjoint _ _ _ _ (by omega),
      readWord_writeWord_disjoint _ _ _ _ (by omega), readWord_writeWord_same]
    decide
  · show readWord (resetMem f) (VM_START_ADDR + WORD) = 0
    unfold resetMem WORD
    rw [readWord_writeWord_disjoint _ _ _ _ (by omega), readWord_writeWord_same]
    rfl
  · show readWord (resetMem f) (VM_START_ADDR + 2 * WORD) = 0
    unfold resetMem
    rw [readWord_writeWord_same]
    rfl
  · intro fuel p
    unfold scm_allocated_addr
    dsimp only
    rw [hb, hl]
    exact allocated_scan_done _ _ _ _ _ (Nat.lt_irrefl _)
  · intro fuel n
    rw [hb, hl]
    exact malloc_scan_done _ _ _ _ _ (Nat.lt_irrefl _)

/-- Witness of C12: the 64-byte file opened with `truncate = 1`. -/
theorem scm_open_reset_witness :
    file64.size < SIZE_T ∧
      ∃ s, scm_open file64 1 = some s ∧ s.used_bytes = 0 ∧ s.user_bytes = 0 ∧
        scm_utilized s = 0 ∧ scm_capacity s = file64.size :=
  match scm_open_reset file64 1 rfl rfl rfl (by decide) (Or.inl (by decide)) with
  | ⟨s, h1, _, _, _, h5, h6, h7, h8, _⟩ => ⟨by decide, s, h1, h5, h6, h7, h8⟩

/-- C13, evaluated.  On the freshly reset 64-byte file, `scm_malloc` of 16
bytes leaves `used_bytes = 32`; then `scm_malloc` of `SIZE_MAX - 47` bytes
passes the capacity check, because `used_bytes + n + 2*sizeof(size_t)` wraps
to 0, returns a pointer and leaves `used_bytes = 0`, less than before. -/
theorem used_bytes_decreases :
    ∃ s0 s1 p1 s2 p2,
      scm_open file64 1 = some s0 ∧ scm_malloc 0 s0 16 = some (s1, p1) ∧
      scm_malloc 1 s1 (SIZE_MAX - 47) = some (s2, p2) ∧ 0 < SIZE_MAX - 47 ∧
      SIZE_MAX - 47 < SIZE_T ∧ p2 ≠ NULL ∧
      s1.used_bytes = 32 ∧ s2.used_bytes = 0 ∧ s2.used_bytes < s1.used_bytes :=
  ⟨_, _, _, _, _, rfl, rfl, rfl, by decide, by decide, by decide, by decide, by decide,
    by decide⟩

/-- C14, evaluated.  On the freshly reset 64-byte file (`used_bytes = 0`, no
block), a request of `SIZE_MAX - 7` bytes exceeds the 64 remaining bytes as an
integer, yet `used_bytes + n + 2*sizeof(size_t)` wraps to 8 and the capacity
check passes: `scm_malloc` returns `base_addr + 16`, writes a block with flag
1 and stored size `SIZE_MAX - 7`, and sets `used_bytes = 8`. -/
theorem capacity_check_wraps :
    ∃ s0 s1 p,
      scm_open file64 1 = some s0 ∧ Tiled s0 [] ∧ s0.used_bytes ≤ s0.size ∧
      s0.size - s0.used_bytes < (SIZE_MAX - 7) + ADDR_INFO_BYTES ∧
      SIZE_MAX - 7 < SIZE_T ∧
      scm_malloc 0 s0 (SIZE_MAX - 7) = some (s1, p) ∧
      p = s0.base_addr + 16 ∧ p ≠ NULL ∧ s1.used_bytes = 8 ∧
      readWord s1.mem s0.base_addr = 1 ∧
      readWord s1.mem (s0.base_addr + WORD) = SIZE_MAX - 7 :=
  ⟨_, _, _, rfl, ⟨by decide, by decide⟩, by decide, by decide, by decide, rfl, by decide,
    by decide, by decide, by decide, by decide⟩

/-- C17. Reuse does not shrink or move a block.  First part, any region:
when the loop of `scm_malloc` returns `a`, the flag word before `a` was 0
and is 1 afterwards, the stored size `m ≥ n` next to it is as before (not
`n`), every byte outside the flag word and every field of the record
(`used_bytes` and `user_bytes` among them) is unchanged, and so is header
word 1 when it does not overlap the flag word.  Second part, a tiled region
whose header lies below the usable space: the reused block is the first free
block that fits, the region is tiled by the same blocks with only that flag
changed from 0 to 1, and the three header words are unchanged. -/
theorem scm_malloc_reuse_frame :
    (∀ (fuel : Nat) (s : scm) (n a : Nat),
      malloc_scan s.mem (padd (scm_mbase s) s.used_bytes) n fuel (scm_mbase s)
        = some (some a) →
      ∃ s1, scm_malloc fuel s n = some (s1, a) ∧
        readWord s.mem (psub a (2 * WORD)) = 0 ∧
        readWord s1.mem (psub a (2 * WORD)) = 1 ∧
        n ≤ readWord s.mem (psub a (2 * WORD) + WORD) ∧
        readWord s1.mem (psub a (2 * WORD) + WORD)
          = readWord s.mem (psub a (2 * WORD) + WORD) ∧
        (∀ x, ¬ (psub a (2 * WORD) ≤ x ∧ x < psub a (2 * WORD) + WORD) →
          s1.mem x = s.mem x) ∧
        s1.used_bytes = s.used_bytes ∧ s1.user_bytes = s.user_bytes ∧
        s1.size = s.size ∧ s1.size_info = s.size_info ∧ s1.base_addr = s.base_addr ∧
        s1.mapped_addr = s.mapped_addr ∧
        (s.size_info + 2 * WORD ≤ psub a (2 * WORD) ∨
            psub a (2 * WORD) + WORD ≤ s.size_info + WORD →
          readWord s1.mem (s.size_info + WORD) = readWord s.mem (s.size_info + WORD))) ∧
    (∀ (s : scm) (pre post : List Block) (b : Block) (n fuel : Nat),
      Tiled s (pre ++ b :: post) → s.size_info + SIZE_INFO_BYTES ≤ s.base_addr →
      b.flag = 0 → n ≤ b.size → (∀ c ∈ pre, ¬ (c.flag = 0 ∧ n ≤ c.size)) →
      pre.length < fuel →
      ∃ s1 p, scm_malloc fuel s n = some (s1, p) ∧
        p = s.base_addr + blocksBytes pre + ADDR_INFO_BYTES ∧
        Tiled s1 (pre ++ ⟨1, b.size⟩ :: post) ∧
        (∀ x, ¬ (s.base_addr + blocksBytes pre ≤ x ∧ x < s.base_addr + blocksBytes pre + WORD) →
          s1.mem x = s.mem x) ∧
        s1.used_bytes = s.used_bytes ∧
        readWord s1.mem s.size_info = readWord s.mem s.size_info ∧
        readWord s1.mem (s.size_info + WORD) = readWord s.mem (s.size_info + WORD) ∧
        readWord s1.mem (s.size_info + 2 * WORD)
          = readWord s.mem (s.size_info + 2 * WORD)) := by
  constructor
  · intro fuel s n a hscan
    obtain ⟨_, h0, hn⟩ := malloc_scan_some _ _ _ _ _ _ hscan
    have hre := malloc_reuse_any fuel s n a hscan
    generalize psub a (2 * WORD) = q at h0 hn hre ⊢
    refine ⟨{ s with mem := writeWord s.mem q 1 }, hre, h0, ?_, hn, ?_, ?_, rfl, rfl, rfl, rfl,
      rfl, rfl, ?_⟩
    · exact (readWord_writeWord_same _ _ _).trans (by decide)
    · exact readWord_writeWord_disjoint _ _ _ _ (by unfold WORD; omega)
    · intro x hx
      exact writeWord_outside _ _ _ _ (by unfold WORD at hx; omega)
    · intro hd
      exact readWord_writeWord_disjoint _ _ _ _ (by unfold WORD at hd ⊢; omega)
  · intro s pre post b n fuel ht hh hfree hsz hfirst hfuel
    unfold SIZE_INFO_BYTES WORD at hh
    refine ⟨{ s with mem := writeWord s.mem (s.base_addr + blocksBytes pre) 1 }, _,
      malloc_reuse s pre post b n fuel ht hfree hsz hfirst hfuel, rfl,
      ⟨tiles_set_flag s.mem 1 (by unfold SIZE_T; norm_num) b post pre _ _ ht.layout, ht.fits⟩,
      ?_, rfl, ?_, ?_, ?_⟩
    · intro x hx
      exact writeWord_outside _ _ _ _ (by unfold WORD at hx; omega)
    · exact readWord_writeWord_disjoint _ _ _ _ (by omega)
    · exact readWord_writeWord_disjoint _ _ _ _ (by unfold WORD; omega)
    · exact readWord_writeWord_disjoint _ _ _ _ (by unfold WORD; omega)

/-- Witness of C17: a request of 8 bytes in `regionB` reuses the free block of
stored size 16, which keeps that size. -/
theorem scm_malloc_reuse_frame_witness :
    Tiled regionB [⟨0, 16⟩, ⟨1, 16⟩] ∧
      ∃ s1 p, scm_malloc 1 regionB 8 = some (s1, p) ∧
        p = regionB.base_addr + blocksBytes [] + ADDR_INFO_BYTES ∧
        Tiled s1 [⟨1, 16⟩, ⟨1, 16⟩] ∧ s1.used_bytes = regionB.used_bytes :=
  have h : Tiled regionB [⟨0, 16⟩, ⟨1, 16⟩] := ⟨by decide, by decide⟩
  match scm_malloc_reuse_frame.2 regionB [] [⟨1, 16⟩] ⟨0, 16⟩ 8 1 h (by decide) rfl (by decide)
      (by simp) (by decide) with
  | ⟨s1, p, h1, h2, h3, _, h5, _⟩ => ⟨h, s1, p, h1, h2, h3, h5⟩

/-- C15, evaluated.  Function `scm_strdup` has no capacity check.  First
part: on the freshly reset 64-byte file, whose mapping is one page of 4096
bytes, the duplication of a string of 5000 bytes makes `strcpy` store past
the mapped page; the call has no result and creates no block.  Second part:
after an allocation of 16 bytes and two releases of its pointer, `user_bytes`
is `2^64 - 16`; the duplication of a string of 16 bytes returns and
`user_bytes` wraps to 1, which is not the old value plus `strlen + 1 = 17`. -/
theorem scm_strdup_no_capacity_check :
    (∃ s0,
      scm_open file64 1 = some s0 ∧
      ¬ mapped s0 (s0.base_addr + s0.used_bytes + ADDR_INFO_BYTES)
        ((List.replicate 5000 97).length + 1) ∧
      scm_strdup s0 (List.replicate 5000 97) = none) ∧
    (∃ s0 s1 p s2 s3 s4 q,
      scm_open file64 1 = some s0 ∧ scm_malloc 0 s0 16 = some (s1, p) ∧
      scm_free 1 s1 p = some s2 ∧ scm_free 1 s2 p = some s3 ∧
      scm_strdup s3 (List.replicate 16 97) = some (s4, q) ∧
      s3.user_bytes = SIZE_T - 16 ∧ s4.user_bytes = 1 ∧
      s4.user_bytes ≠ s3.user_bytes + ((List.replicate 16 97).length + 1)) := by
  have hm : ¬ mapped (resetRegion file64)
      ((resetRegion file64).base_addr + (resetRegion file64).used_bytes + ADDR_INFO_BYTES)
      ((List.replicate 5000 97).length + 1) := by
    rw [List.length_replicate]
    decide
  refine ⟨⟨resetRegion file64, rfl, hm, ?_⟩,
    ⟨_, _, _, _, _, _, _, rfl, rfl, rfl, rfl, rfl, by decide, by decide, by decide⟩⟩
  rw [strdup_cases (resetRegion file64) (List.replicate 5000 97)
    (by rw [List.length_replicate]; decide), if_neg (fun h => hm h.2)]

/-- C16. Contiguous layout invariant.  In every state reached from a freshly
reset file by calls of `scm_malloc`, `scm_strdup` and `scm_free` none of which
makes the size arithmetic wrap around, the blocks tile the used area: the
metadata read at offset 0 of the usable space, then at each offset reached by
adding `2*sizeof(size_t)` plus the stored size, ends exactly at `used_bytes`,
and `used_bytes` is the sum over all blocks, live and free, of metadata size
plus stored size.  The memory determines these blocks. -/
theorem reachable_tiled (f : File)
    (hf : VM_START_ADDR + SIZE_INFO_BYTES + ADDR_INFO_BYTES + f.size < SIZE_T)
    (s : scm) (issued : List Nat) (hr : Reach f s issued) :
    ∃ bs, tiles s.mem s.base_addr bs (s.base_addr + s.used_bytes) ∧
      s.used_bytes = blocksBytes bs ∧
      ∀ bs1, tiles s.mem s.base_addr bs1 (s.base_addr + s.used_bytes) → bs1 = bs := by
  obtain ⟨bs, hi⟩ := reach_inv f hf s issued hr
  exact ⟨bs, hi.tiled.layout, tiled_used s bs hi.tiled,
    fun bs1 h1 => tiles_unique s.mem bs1 bs _ _ h1 hi.tiled.layout⟩

/-- Witness of C16: the region after two allocations of 16 bytes on the
64-byte file. -/
theorem reachable_tiled_witness :
    Reach file64 regionAB
        [VM_START_ADDR + SIZE_INFO_BYTES + 48, VM_START_ADDR + SIZE_INFO_BYTES + 16] ∧
      ∃ bs, tiles regionAB.mem regionAB.base_addr bs (regionAB.base_addr + regionAB.used_bytes) ∧
        regionAB.used_bytes = blocksBytes bs ∧
        ∀ bs1, tiles regionAB.mem regionAB.base_addr bs1
          (regionAB.base_addr + regionAB.used_bytes) → bs1 = bs :=
  ⟨reach_regionAB, reachable_tiled file64 (by decide) regionAB _ reach_regionAB⟩

/-- C20. The linear scan terminates and is bounded by the blocks.  In a
region whose blocks tile the used area, the scan loop runs its body exactly
once per block, in layout order, at the payload start of each block, and ends
within as many iterations as there are blocks; so do the loops of
`scm_malloc` (which returns the first visited block that passes its test) and
of `scm_allocated_addr` (which returns whether `p` is visited).  At the visit
of a block the metadata is read at the start of that block, below
`used_bytes`, and the next address is the current one plus
`2*sizeof(size_t)` plus the stored size, without wrap-around.  With
`used_bytes = 0` the body does not run at all. -/
theorem scan_bounded (s : scm) (bs : List Block) (ht : Tiled s bs) :
    scan_visits s.mem (padd (scm_mbase s) s.used_bytes) bs.length (scm_mbase s)
        = some (payloads s.base_addr bs) ∧
      (payloads s.base_addr bs).length = bs.length ∧
      List.Pairwise (fun a b => a < b) (payloads s.base_addr bs) ∧
      (∀ n, malloc_scan s.mem (padd (scm_mbase s) s.used_bytes) n bs.length (scm_mbase s)
        = some ((payloads s.base_addr bs).find? (reusable s.mem n))) ∧
      (∀ p, allocated_scan s.mem (padd (scm_mbase s) s.used_bytes) p bs.length (scm_mbase s)
        = some (decide (p ∈ payloads s.base_addr bs))) ∧
      (∀ pre b post, bs = pre ++ b :: post →
        (payloads s.base_addr bs)[pre.length]?
            = some (s.base_addr + blocksBytes pre + ADDR_INFO_BYTES) ∧
          psub (s.base_addr + blocksBytes pre + ADDR_INFO_BYTES) (2 * WORD)
            = s.base_addr + blocksBytes pre ∧
          s.base_addr + blocksBytes pre < s.base_addr + s.used_bytes ∧
          readWord s.mem (s.base_addr + blocksBytes pre + WORD) = b.size ∧
          padd (padd (s.base_addr + blocksBytes pre + ADDR_INFO_BYTES) b.size) ADDR_INFO_BYTES
            = (s.base_addr + blocksBytes pre + ADDR_INFO_BYTES) + (ADDR_INFO_BYTES + b.size)) ∧
      (s.used_bytes = 0 →
        scan_visits s.mem (padd (scm_mbase s) s.used_bytes) 0 (scm_mbase s) = some []) := by
  have hv := scan_visits_tiled s bs ht
  refine ⟨hv, payloads_length bs _, payloads_sorted bs _,
    fun n => malloc_scan_of_visits _ _ n _ _ _ hv,
    fun p => allocated_scan_of_visits _ _ p _ _ _ hv, ?_, ?_⟩
  · intro pre b post hbs
    subst hbs
    have hu := tiled_used s _ ht
    have hf := ht.fits
    rw [blocksBytes_append] at hu
    simp only [blocksBytes] at hu
    unfold ADDR_INFO_BYTES WORD at hu hf
    refine ⟨payloads_get pre post b s.base_addr, ?_, by omega,
      tiles_size_at s.mem post pre _ _ b ht.layout, ?_⟩
    · rw [psub_eq _ (by unfold ADDR_INFO_BYTES WORD; omega)
        (by unfold ADDR_INFO_BYTES WORD; omega)]
      unfold ADDR_INFO_BYTES WORD
      omega
    · unfold ADDR_INFO_BYTES WORD
      rw [padd_eq (s.base_addr + blocksBytes pre + 2 * 8) b.size (by omega),
        padd_eq _ _ (by omega)]
      omega
  · intro h0
    have hu := tiled_used s _ ht
    have hnil : bs = [] := blocksBytes_eq_zero bs (by omega)
    rw [hnil] at hv
    exact hv

/-- Witness of C20: the scan of `regionB` visits its two blocks, at offsets 16
and 48 of the usable space. -/
theorem scan_bounded_witness :
    Tiled regionB [⟨0, 16⟩, ⟨1, 16⟩] ∧
      scan_visits regionB.mem (padd (scm_mbase regionB) regionB.used_bytes) 2 (scm_mbase regionB)
        = some [regionB.base_addr + 16, regionB.base_addr + 48] :=
  have h : Tiled regionB [⟨0, 16⟩, ⟨1, 16⟩] := ⟨by decide, by decide⟩
  ⟨h, (scan_bounded regionB [⟨0, 16⟩, ⟨1, 16⟩] h).1⟩

/-- C19, evaluated.  On the freshly reset 4096-byte file the header mirrors
the record after `scm_open`.  Allocate 208 bytes, then `SIZE_MAX - 14` bytes,
then `SIZE_MAX` bytes: both large requests pass the capacity check because
`used_bytes + n + 2*sizeof(size_t)` wraps around, and the metadata of the
third block is stored over the size word of the second one.  The header still
mirrors the record (`used_bytes = 240`).  Now `scm_free` of `base_addr`: the
scan follows the overwritten size word back to `base_addr`, takes it for a
payload start, and the release stores its flag 0 in header word 1.  Header
word 1 reads 0 while `used_bytes` is 240, and the store of `scm_close` changes
the mapped bytes. -/
theorem header_word_overwritten :
    ∃ s0 s1 p1 s2 p2 s3 p3 s4,
      scm_open (constFile 4096 0) 1 = some s0 ∧ Mirror s0 ∧
      scm_malloc 0 s0 208 = some (s1, p1) ∧
      scm_malloc 1 s1 (SIZE_MAX - 14) = some (s2, p2) ∧
      scm_malloc 2 s2 SIZE_MAX = some (s3, p3) ∧ Mirror s3 ∧
      scm_free 3 s3 s0.base_addr = some s4 ∧
      s4.used_bytes = 240 ∧ readWord s4.mem (s4.size_info + WORD) = 0 ∧ ¬ Mirror s4 ∧
      readWord (scm_close s4) (s4.size_info + WORD) = 240 :=
  ⟨resetRegion (constFile 4096 0), appended (resetRegion (constFile 4096 0)) 208, _,
    appended (appended (resetRegion (constFile 4096 0)) 208) (SIZE_MAX - 14), _,
    regionOverlap, _, released regionOverlap (VM_START_ADDR + WORD) 192,
    rfl, ⟨by decide, by decide, by decide⟩, rfl, rfl, rfl,
    ⟨by decide, by decide, by decide⟩,
    (by
      have h : scm_allocated_addr 3 regionOverlap (VM_START_ADDR + SIZE_INFO_BYTES)
          = some true := by decide
      show scm_free 3 regionOverlap (VM_START_ADDR + SIZE_INFO_BYTES) = _
      unfold scm_free
      rw [h]
      rfl),
    by decide, by decide, fun h => absurd h.used (by decide), by decide⟩

/-- C18. No live block is issued twice.  In every state reached from a
freshly reset file without wrap-around, a pointer returned by a successful
`scm_malloc` (not `NULL`, request not wrapping) or by a `scm_strdup` that
returns (new block addressable) is the payload start of a live block of the
new region, differs from the payload start of every block that was live
before the call, and the payload range of its block is disjoint from the
metadata and payload of every other block. -/
theorem no_live_block_issued_twice (f : File)
    (hf : VM_START_ADDR + SIZE_INFO_BYTES + ADDR_INFO_BYTES + f.size < SIZE_T)
    (s : scm) (issued : List Nat) (hr : Reach f s issued) :
    (∀ n fuel s1 p, s.used_bytes + n + ADDR_INFO_BYTES < SIZE_T →
      scm_malloc fuel s n = some (s1, p) → p ≠ NULL → IssuedFresh s s1 p) ∧
    (∀ str : List Nat,
      s.base_addr + ADDR_INFO_BYTES + s.used_bytes + (str.length + 1) + ADDR_INFO_BYTES
        < SIZE_T →
      ∀ s1 p, scm_strdup s str = some (s1, p) → IssuedFresh s s1 p) := by
  obtain ⟨bs, hi⟩ := reach_inv f hf s issued hr
  exact ⟨fun n fuel s1 p hno h hp =>
      malloc_fresh s bs hi.tiled hi.header hi.room n fuel s1 p hno h hp,
    fun str hroom s1 p h => strdup_fresh s bs hi.tiled hi.header str hroom s1 p h⟩

/-- Witness of C18: the string "hi" duplicated into the region left by two
allocations of 16 bytes on the 64-byte file. -/
theorem no_live_block_issued_twice_witness :
    Reach file64 regionAB
        [VM_START_ADDR + SIZE_INFO_BYTES + 48, VM_START_ADDR + SIZE_INFO_BYTES + 16] ∧
      ∃ s1 p, scm_strdup regionAB [104, 105] = some (s1, p) ∧ IssuedFresh regionAB s1 p :=
  ⟨reach_regionAB, duplicated regionAB [104, 105], _,
    strdup_eq regionAB [104, 105] (by decide) (by decide),
    (no_live_block_issued_twice file64 (by decide) regionAB _ reach_regionAB).2 [104, 105]
      (by decide) _ _ (strdup_eq regionAB [104, 105] (by decide) (by decide))⟩

/-- C11, evaluated.  On the freshly reset 64-byte file two calls of
`scm_malloc` with 16 bytes succeed (the check compares with the whole file
size, see C6) and leave two live blocks of stored size 16 with
`used_bytes = 64`; the size word of the second block is at file offset 64,
past the end of the file.  After `scm_close` and `scm_open` with
`truncate = 0` the size and both counters are as before, but that size word
reads 0 instead of 16: the region is no longer tiled by the two blocks, and
the scan, which visited two blocks before the close, now visits three. -/
theorem close_reopen_loses_block :
    ∃ s0 s1 p1 s2 p2 s3,
      scm_open file64 1 = some s0 ∧ scm_malloc 0 s0 16 = some (s1, p1) ∧
      scm_malloc 1 s1 16 = some (s2, p2) ∧ scm_open (closeFile s2) 0 = some s3 ∧
      s3.size = s2.size ∧ s3.used_bytes = s2.used_bytes ∧ s3.user_bytes = s2.user_bytes ∧
      scm_utilized s3 = scm_utilized s2 ∧
      tiles s2.mem s2.base_addr [⟨1, 16⟩, ⟨1, 16⟩] (s2.base_addr + s2.used_bytes) ∧
      p2 - WORD - s2.mapped_addr = 64 ∧ s2.size = 64 ∧
      readWord s2.mem (p2 - WORD) = 16 ∧ readWord s3.mem (p2 - WORD) = 0 ∧
      ¬ tiles s3.mem s3.base_addr [⟨1, 16⟩, ⟨1, 16⟩] (s3.base_addr + s3.used_bytes) ∧
      scan_visits s2.mem (padd (scm_mbase s2) s2.used_bytes) 3 (scm_mbase s2)
        = some [p1, p2] ∧
      scan_visits s3.mem (padd (scm_mbase s3) s3.used_bytes) 3 (scm_mbase s3)
        = some [p1, p2, p2 + 16] :=
  ⟨resetRegion file64, appended (resetRegion file64) 16,
    VM_START_ADDR + SIZE_INFO_BYTES + 16, regionAB, VM_START_ADDR + SIZE_INFO_BYTES + 48,
    regionABreopened,
    open_reset file64 1 rfl rfl rfl (Or.inr (by decide)),
    malloc_append (resetRegion file64) [] 16 0 ⟨by decide, by decide⟩ (by simp) (by decide)
      (by decide) (by decide),
    malloc_append (appended (resetRegion file64) 16) [⟨1, 16⟩] 16 1 ⟨by decide, by decide⟩
      (by simp) (by decide) (by decide) (by decide),
    reopen_eq regionAB rfl rfl rfl (by decide) (by decide) (by decide) (by decide),
    rfl, rfl, rfl, rfl, by decide, by decide, by decide, by decide, by decide, by decide,
    by decide, by decide⟩

end Scm
